import Mathlib

/-!
# Verification of the subtitle reflow engine

Shallow embedding of the subtitle line-splitting engine
(`src/engine/rules.ts`, `src/engine/splitter.ts`, `src/engine/srt.ts`)
and proofs about it.

Strings are modelled through their character lists (`List Char`); the
public operations keep the source's names and take `String` arguments,
delegating to `List Char` workers (suffix `L`).  JavaScript's `\s` class
is modelled by ASCII whitespace; numbers appearing in the code are
naturals (`Nat`) or integers (`Int`, for scores and index sentinels).
Loops whose termination is not structural take an explicit fuel
argument, always instantiated generously by the wrapper; invariants are
proved for every fuel value.
-/

namespace Verbolabs

/-- JavaScript `\s` restricted to ASCII: space, tab, newline, vertical
tab, form feed, carriage return. -/
def isSpace (c : Char) : Bool :=
  c = ' ' || c = '\t' || c = '\n' || c = Char.ofNat 11 || c = Char.ofNat 12 || c = '\r'

/-- Regex word character `\w`: ASCII letter, digit or underscore. -/
def isWordChar (c : Char) : Bool :=
  ('a' ≤ c && c ≤ 'z') || ('A' ≤ c && c ≤ 'Z') || ('0' ≤ c && c ≤ '9') || c = '_'

/-- ASCII letter. -/
def isAsciiAlpha (c : Char) : Bool :=
  ('a' ≤ c && c ≤ 'z') || ('A' ≤ c && c ≤ 'Z')

/-- ASCII digit. -/
def isDigit (c : Char) : Bool :=
  '0' ≤ c && c ≤ '9'

/-- `String.prototype.toLowerCase` on ASCII letters. -/
def lowerChar (c : Char) : Char :=
  if 'A' ≤ c && c ≤ 'Z' then Char.ofNat (c.toNat + 32) else c

/-- `String.prototype.toUpperCase` on ASCII letters. -/
def upperChar (c : Char) : Char :=
  if 'a' ≤ c && c ≤ 'z' then Char.ofNat (c.toNat - 32) else c

def lowerL (l : List Char) : List Char := l.map lowerChar

/-- `replace(/\s+/g, " ")`: collapse every whitespace run to one space.
The boolean records whether the previous character was whitespace. -/
def collapseAux : List Char → Bool → List Char
  | [], _ => []
  | c :: cs, inWs =>
    if isSpace c then
      if inWs then collapseAux cs true else ' ' :: collapseAux cs true
    else c :: collapseAux cs false

def collapseWs (l : List Char) : List Char := collapseAux l false

/-- `String.prototype.trim` (ASCII whitespace). -/
def trimL (l : List Char) : List Char :=
  ((l.dropWhile fun c => isSpace c).reverse.dropWhile fun c => isSpace c).reverse

/-- `text.replace(/\s+/g, " ").trim()` — the normalization applied by
`splitToLines` and `fixSubtitles`. -/
def normalizeL (l : List Char) : List Char := trimL (collapseWs l)

/-- Split a character list into its maximal non-whitespace runs
(`split(/\s+/).filter(Boolean)` on a string). -/
def wordsAux : List Char → List Char → List (List Char)
  | [], buf => if buf = [] then [] else [buf.reverse]
  | c :: cs, buf =>
    if isSpace c then
      if buf = [] then wordsAux cs [] else buf.reverse :: wordsAux cs []
    else wordsAux cs (c :: buf)

def wordsOf (l : List Char) : List (List Char) := wordsAux l []

/-!
## Tag stripping — `TAG_REGEX = /(\{[^}]*\}|<[^>]+>)/g`

`visibleText` removes every match of the tag regex.  A `{…}` match runs
to the first following `}` (possibly empty body); a `<…>` match needs a
non-empty body before the first following `>`.  A failed match at a
delimiter leaves the delimiter visible and continues at the next
character, exactly as the global regex scan does.  The scan is driven by
fuel; the wrapper supplies `length + 1`, which a step-per-character
argument shows is always sufficient.
-/

/-- Split `l` at the first occurrence of `c`: `some (before, after)`
with `l = before ++ c :: after` and `c ∉ before`. -/
def splitFirst (c : Char) : List Char → Option (List Char × List Char)
  | [] => none
  | x :: xs =>
    if x = c then some ([], xs)
    else match splitFirst c xs with
      | some (a, b) => some (x :: a, b)
      | none => none

def visibleTextF : Nat → List Char → List Char
  | 0, l => l
  | _ + 1, [] => []
  | f + 1, c :: cs =>
    if c = '{' then
      match splitFirst '}' cs with
      | some (_, post) => visibleTextF f post
      | none => '{' :: visibleTextF f cs
    else if c = '<' then
      match splitFirst '>' cs with
      | some ([], _) => '<' :: visibleTextF f cs
      | some (_ :: _, post) => visibleTextF f post
      | none => '<' :: visibleTextF f cs
    else c :: visibleTextF f cs

def visibleTextL (l : List Char) : List Char := visibleTextF (l.length + 1) l

def visibleLenL (l : List Char) : Nat := (visibleTextL l).length

/-- `visibleText` of the splitter (string level). -/
def visibleText (s : String) : String := ⟨visibleTextL s.data⟩

/-- `visibleLength` of the splitter; also `visibleLengthLocal` of
`srt.ts`, which strips the same regex. -/
def visibleLength (s : String) : Nat := visibleLenL s.data

def MAX_CHARS : Nat := 42

/-!
## Tokenizer — `tokenize` of `splitter.ts`

A two-state scanner: accumulating a word, or inside a tag opened by `<`
or `{` looking for the matching closer.  An unterminated tag consumes
the rest of the input as one token.  Structural in the input.
-/

/-- Matching closer of a tag delimiter. -/
def closeOf (c : Char) : Char := if c = '<' then '>' else '}'

def flushBuf (buf : List Char) : List (List Char) :=
  if buf = [] then [] else [buf.reverse]

-- Scanner core. `buf` is the reversed pending word. After a delimiter
-- is seen, `tagAux` accumulates the reversed tag body until the closer.
mutual

def tokAux : List Char → List Char → List (List Char)
  | [], buf => flushBuf buf
  | c :: cs, buf =>
    if c = '<' || c = '{' then
      flushBuf buf ++ tagAux cs (closeOf c) [c]
    else if isSpace c then
      flushBuf buf ++ tokAux cs []
    else tokAux cs (c :: buf)

def tagAux : List Char → Char → List Char → List (List Char)
  | [], _, acc => [acc.reverse]
  | c :: cs, close, acc =>
    if c = close then acc.reverse.concat c :: tokAux cs []
    else tagAux cs close (c :: acc)

end

def tokenizeL (l : List Char) : List (List Char) := tokAux l []

def tokenize (s : String) : List String := (tokenizeL s.data).map fun l => ⟨l⟩

/-- `joinTokens`: join with single spaces, collapse whitespace, trim. -/
def joinTokensL (ts : List (List Char)) : List Char :=
  normalizeL (List.intercalate [' '] ts)

def joinTokens (ts : List String) : String := ⟨joinTokensL (ts.map String.data)⟩

/-!
## Rule tables and predicates — `rules.ts` (module with `calculateSplitQuality`)

This is the rules module the splitter imports (`MAX_CHARS`,
`isForbiddenSplit`, `calculateSplitQuality`).  The repository also
carries a reduced variant of `rules.ts` without `calculateSplitQuality`;
it is embedded below as `isForbiddenSplitLegacy`.
-/

def ARTICLES : List (List Char) := ["a", "an", "the"].map String.data

def SUBJECT_PRONOUNS : List (List Char) :=
  ["i", "you", "he", "she", "we", "they"].map String.data

def POSSESSIVE_PRONOUNS : List (List Char) :=
  ["my", "your", "his", "her", "our", "their"].map String.data

def DEMONSTRATIVE_PRONOUNS : List (List Char) :=
  ["this", "that", "these", "those"].map String.data

def AUXILIARY_VERBS : List (List Char) :=
  ["am", "is", "are", "was", "were", "be", "been", "being",
   "have", "has", "had", "do", "does", "did"].map String.data

def MODAL_VERBS : List (List Char) :=
  ["can", "could", "will", "would", "shall", "should",
   "may", "might", "must"].map String.data

def CONJUNCTIONS : List (List Char) :=
  ["and", "but", "or", "nor", "for", "so", "yet"].map String.data

def PREPOSITIONS : List (List Char) :=
  ["about", "above", "across", "after", "against", "along",
   "among", "around", "at", "before", "behind", "below",
   "beneath", "beside", "between", "by", "down", "during",
   "except", "for", "from", "in", "inside", "into", "like",
   "near", "of", "off", "on", "onto", "out", "outside",
   "over", "past", "since", "through", "to", "toward",
   "under", "until", "up", "upon", "with", "within", "without"].map String.data

def PHRASAL_VERBS : List (List Char) :=
  ["break down", "break up", "bring up", "call off", "come across", "come up with",
   "find out", "get along", "get over", "give up", "go on", "look after",
   "look for", "look forward to", "make up", "put off", "put on", "put up with",
   "run into", "run out of", "take after", "take off", "take up", "turn down",
   "turn up", "work out"].map String.data

def FIXED_EXPRESSIONS : List (List Char) :=
  ["as soon as", "as well as", "by the way", "in spite of", "in order to",
   "on the other hand", "out of the question", "sooner or later", "up to date",
   "with regard to", "in front of", "in spite of", "on account of",
   "as a matter of fact"].map String.data

/-- `prev.endsWith suf` on character lists. -/
def endsWithL (l suf : List Char) : Bool := suf.isSuffixOf l

/-- `hay.includes(needle)` — substring containment. -/
def hasSubL (needle : List Char) : List Char → Bool
  | [] => needle.isPrefixOf []
  | c :: cs => needle.isPrefixOf (c :: cs) || hasSubL needle cs

/-- Does `c`'s head satisfy `p`?  (`s[0]` access with optional chaining:
on the empty string both sides of the JS comparisons are `undefined`,
but every call below is guarded by a non-emptiness test.) -/
def headIs (l : List Char) (p : Char → Bool) : Bool :=
  match l with
  | [] => false
  | c :: _ => p c

/-- `isForbiddenSplit` of the rules module used by the splitter. -/
def isForbiddenSplitL (prev next : List Char) : Bool :=
  if prev = [] || next = [] then false
  else
    let prevLower := lowerL prev
    let nextLower := lowerL next
    if ARTICLES.contains prevLower then true
    else if POSSESSIVE_PRONOUNS.contains prevLower ||
        DEMONSTRATIVE_PRONOUNS.contains prevLower then true
    else if SUBJECT_PRONOUNS.contains prevLower then true
    else if AUXILIARY_VERBS.contains prevLower || MODAL_VERBS.contains prevLower then true
    else if endsWithL prev "n't".data || endsWithL prev "'t".data then true
    else if PREPOSITIONS.contains prevLower then true
    else if PHRASAL_VERBS.contains (prevLower ++ ' ' :: nextLower) then true
    else if FIXED_EXPRESSIONS.any (fun fe => hasSubL (prevLower ++ ' ' :: nextLower) fe) then true
    else if headIs prev (fun c => upperChar c = c) && headIs next (fun c => upperChar c = c) then true
    else if prev.all isDigit && prev ≠ [] && nextLower ≠ [] && nextLower.all
        (fun c => 'a' ≤ c && c ≤ 'z') then true
    else if (endsWithL prevLower "er".data || endsWithL prevLower "est".data) &&
        headIs next (fun c => lowerChar c = c) then true
    else false

def isForbiddenSplit (prev next : String) : Bool :=
  isForbiddenSplitL prev.data next.data

/-- `isForbiddenSplit` of the reduced `rules.ts` variant
(`src/src/engine/rules.ts`), kept for comparison. -/
def isForbiddenSplitLegacyL (prev next : List Char) : Bool :=
  if prev = [] || next = [] then false
  else if prev.length ≤ 3 && next.length > 3 then true
  else if SUBJECT_PRONOUNS.contains (lowerL prev) then true
  else if endsWithL prev "n't".data || endsWithL prev "'t".data then true
  else if (["give", "take", "put", "get"].map String.data).contains (lowerL prev)
      && next.length ≤ 3 then true
  else if headIs prev (fun c => upperChar c = c) && headIs next (fun c => upperChar c = c) then true
  else false

def isForbiddenSplitLegacy (prev next : String) : Bool :=
  isForbiddenSplitLegacyL prev.data next.data

/-- Does the last character of `l` belong to `cs`?  (regex `[…]$`). -/
def lastCharIn (l : List Char) (cs : List Char) : Bool :=
  match l.getLast? with
  | some c => cs.contains c
  | none => false

/-- `calculateSplitQuality` of the rules module. -/
def calculateSplitQualityL (prev next : List Char) : Int :=
  let s1 : Int :=
    if lastCharIn prev ['.', '!', '?'] then 10
    else if lastCharIn prev [';', ':', ','] then 5
    else 0
  let s2 : Int := if CONJUNCTIONS.contains (lowerL next) then 5 else 0
  let s3 : Int := if isForbiddenSplitL prev next then -20 else 0
  let s4 : Int := if prev.length < 10 then -5 else 0
  let diff : Nat := ((prev.length : Int) - (next.length : Int)).natAbs
  let s5 : Int := if diff < 5 then 3 else if diff < 10 then 1 else 0
  s1 + s2 + s3 + s4 + s5

def calculateSplitQuality (prev next : String) : Int :=
  calculateSplitQualityL prev.data next.data

/-!
## Line splitter — `splitter.ts`
-/

def BAD_END_WORDS : List (List Char) :=
  ["and", "or", "but", "so", "to", "of", "in", "on", "at", "with", "for",
   "this", "that", "it", "is", "was", "were", "be", "been", "being"].map String.data

def CONJ : List (List Char) :=
  ["and", "but", "or", "so", "because", "however"].map String.data

def PREP : List (List Char) :=
  ["to", "in", "on", "at", "with", "for", "from", "into", "onto", "over",
   "under", "about", "after", "before", "by", "around", "through"].map String.data

/-- `wordCount`: number of maximal non-whitespace runs. -/
def wordCountL (l : List Char) : Nat := (wordsOf l).length

/-- Last whitespace-separated word (`split(/\s+/).pop()`). -/
def lastWordOf (l : List Char) : Option (List Char) := (wordsOf l).getLast?

/-- First whitespace-separated word (`split(/\s+/)[0]`). -/
def firstWordOf (l : List Char) : Option (List Char) := (wordsOf l).head?

/-- `isBadSplit` of `splitter.ts`. -/
def isBadSplitL (left right : List Char) : Bool :=
  let leftClean := trimL (visibleTextL left)
  let rightClean := trimL (visibleTextL right)
  if leftClean = [] || rightClean = [] then true
  else if rightClean.length < 10 then true
  else if wordCountL rightClean < 2 then true
  else match lastWordOf leftClean with
    | some w => BAD_END_WORDS.contains (lowerL w)
    | none => false

def isBadSplit (left right : String) : Bool := isBadSplitL left.data right.data

/-- Token → number of word tokens strictly before it (a token is a word
unless it starts with `<` or `{`). -/
def tokenWordIndex (toks : List (List Char)) : List Nat :=
  (toks.foldl (fun (st : List Nat × Nat) tok =>
    let isWord := !(headIs tok (· = '<') || headIs tok (· = '{'))
    (st.1 ++ [st.2], if isWord then st.2 + 1 else st.2)) ([], 0)).1

/-- Total number of word tokens. -/
def totalWordsOf (toks : List (List Char)) : Nat :=
  (toks.filter fun tok => !(headIs tok (· = '<') || headIs tok (· = '{'))).length

/-- Score of the candidate split at token index `tokenSplitIdx`
(body of the candidate loop in `findBestSplitTokenIndex`), or `none`
when the candidate is filtered out. -/
def candidateAt (toks : List (List Char)) (k : Nat) : Option (Nat × Int) :=
  match (tokenWordIndex toks).findIdx? (· = k) with
  | none => none
  | some tokenSplitIdx =>
    let left := joinTokensL (toks.take tokenSplitIdx)
    let right := joinTokensL (toks.drop tokenSplitIdx)
    if left = [] || right = [] then none
    else if visibleLenL left > MAX_CHARS then none
    else if visibleLenL right < 3 then none
    else if isBadSplitL left right then none
    else
      let lastLeftWord := (lastWordOf (trimL (visibleTextL left))).getD []
      let firstRightWord := (firstWordOf (trimL (visibleTextL right))).getD []
      let s1 : Int := if lastCharIn lastLeftWord ['.', '!', '?', ';', ':', ','] then 30 else 0
      let s2 : Int := if CONJ.contains (lowerL firstRightWord) then 20 else 0
      let s3 : Int := if PREP.contains (lowerL firstRightWord) then 15 else 0
      let s4 : Int := if lastCharIn lastLeftWord [',', '.', '!', '?', ';', ':'] then 10 else 0
      let s5 : Int := calculateSplitQualityL lastLeftWord firstRightWord
      let s6 : Int := if isForbiddenSplitL lastLeftWord firstRightWord then -200 else 0
      let diff : Nat := ((visibleLenL left : Int) - (visibleLenL right : Int)).natAbs
      let s7 : Int := if diff < 6 then 5 else if diff < 12 then 2 else 0
      some (tokenSplitIdx, s1 + s2 + s3 + s4 + s5 + s6 + s7)

/-- First maximal-score candidate: the JS stable descending sort
followed by taking the head keeps the earliest candidate among those of
maximal score. -/
def pickBest : List (Nat × Int) → Option (Nat × Int)
  | [] => none
  | c :: cs => some (cs.foldl (fun acc d => if d.2 > acc.2 then d else acc) c)

/-- `findBestSplitTokenIndex`: `-1` when no candidate survives (or the
best score is below `-50`), otherwise the token index where the right
part starts. -/
def findBestSplitTokenIndexL (toks : List (List Char)) : Int :=
  let totalWords := totalWordsOf toks
  if totalWords < 2 then -1
  else
    let candidates := (List.range' 1 (totalWords - 1)).filterMap (candidateAt toks)
    match pickBest candidates with
    | none => -1
    | some best => if best.2 < -50 then -1 else (best.1 : Int)

def findBestSplitTokenIndex (toks : List String) : Int :=
  findBestSplitTokenIndexL (toks.map String.data)

/-- `greedySplitTokenIndex`: accumulate tokens until the next one would
overflow the limit; split before it (after it when it is the very first
token).  `-1` when everything fits. -/
def greedyAux : List (List Char) → List (List Char) → Nat → Int
  | [], _, _ => -1
  | tok :: rest, cur, i =>
    if visibleLenL (joinTokensL (cur ++ [tok])) > MAX_CHARS then
      if cur = [] then (i : Int) + 1 else (i : Int)
    else greedyAux rest (cur ++ [tok]) (i + 1)

def greedySplitTokenIndexL (toks : List (List Char)) : Int := greedyAux toks [] 0

def greedySplitTokenIndex (toks : List String) : Int :=
  greedySplitTokenIndexL (toks.map String.data)

/-- The `while (tokens.length > 0)` loop of `splitChunkIntoLines`,
driven by fuel (every iteration drops at least one token, so
`tokens.length + 1` fuel is enough). -/
def splitChunkLoop : Nat → List (List Char) → List (List Char)
  | 0, _ => []
  | _ + 1, [] => []
  | f + 1, toks =>
    let remainingText := joinTokensL toks
    if visibleLenL remainingText ≤ MAX_CHARS then [remainingText]
    else
      let fb := findBestSplitTokenIndexL toks
      let splitIdx := if fb = -1 then greedySplitTokenIndexL toks else fb
      if splitIdx ≤ 0 || splitIdx ≥ (toks.length : Int) then
        let last := trimL (joinTokensL toks)
        if last = [] then [] else [last]
      else
        let n := splitIdx.toNat
        let left := trimL (joinTokensL (toks.take n))
        (if left = [] then [] else [left]) ++ splitChunkLoop f (toks.drop n)

/-- `splitChunkIntoLines`. -/
def splitChunkIntoLinesL (chunk : List Char) : List (List Char) :=
  let tokens := tokenizeL chunk
  if visibleLenL (joinTokensL tokens) ≤ MAX_CHARS then [joinTokensL tokens]
  else splitChunkLoop (tokens.length + 1) tokens

def splitChunkIntoLines (chunk : String) : List String :=
  (splitChunkIntoLinesL chunk.data).map fun l => ⟨l⟩

/-!
## Semantic chunker — `splitIntoSemanticChunks`
-/

def isHardPunct (c : Char) : Bool := c = '.' || c = '!' || c = '?' || c = ';'

/-- `text.split(/(?<=[.!?;])/)`: split after every strong punctuation
character that is not the last character. -/
def hardAux : List Char → List Char → List (List Char)
  | [], buf => [buf.reverse]
  | c :: cs, buf =>
    if isHardPunct c && cs ≠ [] then (c :: buf).reverse :: hardAux cs []
    else hardAux cs (c :: buf)

def CONJ_WORDS : List (List Char) :=
  ["and", "but", "or", "so", "because", "however", "although", "though",
   "while", "when", "if"].map String.data

/-- Try to match `\b(and|but|…)\b` (case-insensitive) at the head of
`l`; `prevWord` tells whether the character before `l` was a word
character (boundary check).  Returns the matched original characters
and the rest. -/
def tryConj (l : List Char) (prevWord : Bool) : Option (List Char × List Char) :=
  match prevWord with
  | true => none
  | false => CONJ_WORDS.findSome? fun w =>
    let n := w.length
    let pre := l.take n
    if pre.length = n && lowerL pre = w &&
        (match l.drop n with
         | [] => true
         | c :: _ => !isWordChar c) then
      some (pre, l.drop n)
    else none

/-- Scanner for the conjunction split with capture groups: the result
alternates text segments and matched conjunctions (`a.split(re)` with a
capturing group interleaves the captures). -/
def conjScanF : Nat → List Char → Bool → List Char → List (List Char)
  | 0, l, _, buf => [buf.reverse ++ l]
  | _ + 1, [], _, buf => [buf.reverse]
  | f + 1, c :: cs, prevWord, buf =>
    match tryConj (c :: cs) prevWord with
    | some (m, rest) => buf.reverse :: m :: conjScanF f rest true []
    | none => conjScanF f cs (isWordChar c) (c :: buf)

def conjSplitL (l : List Char) : List (List Char) := conjScanF (l.length + 1) l false []

/-- `/^(and|but|…)$/i.test p`. -/
def isConjWord (p : List Char) : Bool := CONJ_WORDS.contains (lowerL p)

/-- Loop re-attaching each matched conjunction to the clause that
follows it. -/
def reattach : List (List Char) → List (List Char)
  | [] => []
  | p :: rest =>
    let p' := trimL p
    if p' = [] then reattach rest
    else if isConjWord p' && rest ≠ [] then
      match rest with
      | [] => [p']
      | q :: rest' =>
        let q' := trimL q
        (if q' = [] then [] else [trimL (p' ++ ' ' :: q')]) ++ reattach rest'
    else p' :: reattach rest

/-- `splitIntoSemanticChunks`. -/
def splitIntoSemanticChunksL (text : List Char) : List (List Char) :=
  let hard := hardAux text []
  if hard.length > 1 then (hard.map trimL).filter (· ≠ [])
  else
    let parts := conjSplitL text
    if parts.length > 1 then (reattach parts).filter (· ≠ [])
    else [text]

def splitIntoSemanticChunks (text : String) : List String :=
  (splitIntoSemanticChunksL text.data).map fun l => ⟨l⟩

/-!
## Main splitter — `splitToLines`
-/

/-- `cutPos` computation of the final guard: number of leading tokens
whose join stays within the limit, testing prefixes cumulatively and
stopping at the first failure. -/
def cutCount (pre : List (List Char)) : List (List Char) → Nat
  | [] => 0
  | t :: rest =>
    if visibleLenL (joinTokensL (pre ++ [t])) ≤ MAX_CHARS then
      cutCount (pre ++ [t]) rest + 1
    else 0

/-- The final-guard `while (visibleLength(rem) > MAX_CHARS)` loop on one
over-long line, driven by fuel. -/
def hardWrapF : Nat → List Char → List (List Char)
  | 0, _ => []
  | f + 1, rem =>
    if visibleLenL rem ≤ MAX_CHARS then
      if trimL rem = [] then [] else [trimL rem]
    else
      let toks := tokenizeL rem
      let cutPos := cutCount [] toks
      if cutPos = 0 then
        let tk := (visibleTextL rem).take MAX_CHARS
        tk :: hardWrapF f (rem.drop tk.length)
      else
        joinTokensL (toks.take cutPos) :: hardWrapF f (joinTokensL (toks.drop cutPos))

/-- Final guard applied to one line. -/
def guardLine (line : List Char) : List (List Char) :=
  if visibleLenL line ≤ MAX_CHARS then [line]
  else hardWrapF (line.length + 2) line

/-- Lines contributed by one semantic chunk inside the
`for (const chunk of semanticChunks)` loop of `splitToLines`. -/
def chunkLines (chunk : List Char) : List (List Char) :=
  let chunkText := trimL chunk
  if chunkText = [] then []
  else if visibleLenL chunkText ≤ MAX_CHARS then [chunkText]
  else (splitChunkIntoLinesL chunkText).filter (· ≠ [])

/-- `splitToLines`. -/
def splitToLinesL (t : List Char) : List (List Char) :=
  let text := normalizeL t
  if text = [] then []
  else if visibleLenL text ≤ MAX_CHARS then [text]
  else
    let semanticChunks := splitIntoSemanticChunksL text
    let finalLines := (semanticChunks.map chunkLines).flatten
    ((finalLines.map guardLine).flatten)

def splitToLines (s : String) : List String := (splitToLinesL s.data).map fun l => ⟨l⟩

/-!
## Timecodes, parser/builder, fixer — `srt.ts`
-/

/-- Split on every occurrence of a separator character
(`t.split(":")`). -/
def splitCharAux (sep : Char) : List Char → List Char → List (List Char)
  | [], buf => [buf.reverse]
  | c :: cs, buf =>
    if c = sep then buf.reverse :: splitCharAux sep cs []
    else splitCharAux sep cs (c :: buf)

def splitChar (sep : Char) (l : List Char) : List (List Char) := splitCharAux sep l []

/-- Decimal value of a digit string. -/
def digitsVal (l : List Char) : Nat := l.foldl (fun acc c => acc * 10 + (c.toNat - 48)) 0

/-- JavaScript `Number(str)` followed by use as a natural: the value of
a (whitespace-padded) digit string, `0` otherwise.  `Number` yields `0`
on the empty string and `NaN` on non-numeric input, both falsy where the
code tests the result; non-integer numeric strings are outside the
modelled domain. -/
def jsToNatL (l : List Char) : Nat :=
  let t := trimL l
  if t ≠ [] && t.all isDigit then digitsVal t else 0

/-- Decimal digits of `n`, driven by fuel (`n + 1` is always enough). -/
def natDigitsF : Nat → Nat → List Char
  | 0, _ => []
  | f + 1, n =>
    if n < 10 then [Char.ofNat (48 + n)]
    else natDigitsF f (n / 10) ++ [Char.ofNat (48 + n % 10)]

/-- Decimal rendering of a natural (JS `${n}` template interpolation). -/
def natToStringL (n : Nat) : List Char := natDigitsF (n + 1) n

/-- `padStart(w, "0")`. -/
def padLeft (l : List Char) (w : Nat) (c : Char) : List Char :=
  List.replicate (w - l.length) c ++ l

/-- `timeToMs`: `HH:MM:SS,mmm` to milliseconds.  Malformed numeric
fields (which give `NaN` in JS) are outside the modelled domain. -/
def timeToMsL (t : List Char) : Nat :=
  let parts := splitChar ':' t
  let h := jsToNatL (parts.getD 0 [])
  let m := jsToNatL (parts.getD 1 [])
  let rest := parts.getD 2 []
  let sub := splitChar ',' rest
  let s := jsToNatL (sub.getD 0 [])
  let ms := jsToNatL (sub.getD 1 [])
  h * 3600000 + m * 60000 + s * 1000 + ms

def timeToMs (t : String) : Nat := timeToMsL t.data

/-- `msToTime`: zero-padded `HH:MM:SS,mmm`. -/
def msToTimeL (ms : Nat) : List Char :=
  let h := padLeft (natToStringL (ms / 3600000)) 2 '0'
  let r1 := ms % 3600000
  let m := padLeft (natToStringL (r1 / 60000)) 2 '0'
  let r2 := r1 % 60000
  let s := padLeft (natToStringL (r2 / 1000)) 2 '0'
  let msr := padLeft (natToStringL (r2 % 1000)) 3 '0'
  h ++ ':' :: m ++ ':' :: s ++ ',' :: msr

def msToTime (ms : Nat) : String := ⟨msToTimeL ms⟩

/-- The millisecond pairs built by `splitTime` before formatting:
`step = max(1, ⌊(e−s)/parts⌋)`, `i`-th pair
`(s+i·step, s+(i+1)·step)`, the last end forced to `e`. -/
def splitTimePairs (s e parts : Nat) : List (Nat × Nat) :=
  let step := max 1 ((e - s) / parts)
  (List.range parts).map fun i =>
    (s + i * step, if i = parts - 1 then e else s + i * step + step)

/-- `splitTime`: formats each pair as `"a --> b"`. -/
def splitTime (start e : String) (parts : Nat) : List String :=
  (splitTimePairs (timeToMs start) (timeToMs e) parts).map fun p =>
    ⟨msToTimeL p.1 ++ " --> ".data ++ msToTimeL p.2⟩

/-- The `Subtitle` interface of `srt.ts`. -/
structure Subtitle where
  index : Nat
  time : String
  text : List String
  wasSplit : Option Bool := none
  deriving Repr, DecidableEq

/-- `input.trim().split(/\n\s*\n/)`: block scanner.  `cur` is the
reversed current block; `wbuf` the reversed pending whitespace run.  A
whitespace run containing two or more newlines is a separator match
(from its first to its last newline), exactly as the greedy
`/\n\s*\n/` matches inside a maximal whitespace run. -/
def sbA : List Char → List Char → List Char → List (List Char)
  | [], cur, wbuf =>
    if 2 ≤ wbuf.count '\n' then
      [cur.reverse ++ wbuf.reverse.takeWhile (· ≠ '\n'),
       (wbuf.takeWhile (· ≠ '\n')).reverse]
    else [cur.reverse ++ wbuf.reverse]
  | c :: cs, cur, wbuf =>
    if isSpace c then sbA cs cur (c :: wbuf)
    else if 2 ≤ wbuf.count '\n' then
      (cur.reverse ++ wbuf.reverse.takeWhile (· ≠ '\n')) ::
        sbA cs (c :: wbuf.takeWhile (· ≠ '\n')) []
    else sbA cs (c :: (wbuf ++ cur)) []

def splitBlank (l : List Char) : List (List Char) := sbA l [] []

/-- `parseSRT`. -/
def parseSRTL (input : List Char) : List Subtitle :=
  (splitBlank (trimL input)).enum.map fun bi =>
    let lines := splitChar '\n' bi.2
    let v := jsToNatL (lines.getD 0 [])
    { index := if v = 0 then bi.1 + 1 else v
      time := ⟨lines.getD 1 []⟩
      text := (lines.drop 2).map fun l => (⟨l⟩ : String) }

def parseSRT (input : String) : List Subtitle := parseSRTL input.data

/-- `visibleLengthLocal` of `srt.ts` (same regex as the splitter's). -/
def visibleLengthLocal (s : String) : Nat := visibleLenL s.data

/-- `lines.slice(i, i + 2)` grouping: consecutive pairs, a leftover
single line forming a last group of its own. -/
def pairUp : List α → List (List α)
  | [] => []
  | [a] => [[a]]
  | a :: b :: r => [a, b] :: pairUp r

/-- `splitIntoEvents`. -/
def splitIntoEvents (text time : String) (startIndex : Nat) : List Subtitle :=
  let lines := splitToLines text
  let hasIllegalLine := lines.any fun l => visibleLengthLocal l > MAX_CHARS
  let chunks := pairUp lines
  if chunks.length = 1 && !hasIllegalLine then
    [{ index := startIndex, time := time, text := chunks.getD 0 [], wasSplit := some false }]
  else
    let parts := time.splitOn " --> "
    let times := splitTime (parts.getD 0 "") (parts.getD 1 "") chunks.length
    chunks.enum.map fun ci =>
      { index := startIndex + ci.1, time := times.getD ci.1 "",
        text := ci.2, wasSplit := some true }

/-- `{...e, index: idx++}` over a list of events. -/
def reindex (es : List Subtitle) (idx : Nat) : List Subtitle :=
  es.enum.map fun ie => { ie.2 with index := idx + ie.1 }

/-- Loop body of `fixSubtitles`, carrying the running index. -/
def fixLoop : List Subtitle → Nat → List Subtitle
  | [], _ => []
  | sub :: rest, idx =>
    let fullText : String := ⟨normalizeL (List.intercalate [' '] (sub.text.map String.data))⟩
    let events := splitIntoEvents fullText sub.time idx
    reindex events idx ++ fixLoop rest (idx + events.length)

/-- `fixSubtitles`. -/
def fixSubtitles (subs : List Subtitle) : List Subtitle := fixLoop subs 1

/-- `buildSRT`. -/
def buildSRT (subs : List Subtitle) : String :=
  ⟨List.intercalate "\n\n".data (subs.map fun s =>
    natToStringL s.index ++ ('\n' :: (s.time.data ++ ('\n' ::
      List.intercalate ['\n'] (s.text.map String.data)))))⟩

/-!
## Claim-level predicates
-/

/-- `isBadSplit` of the application shell (`App.tsx`): the top-level
two-line quality predicate of §4.6 (empty side, dangling or leading
conjunction, forbidden pair, either side under two words). -/
def isBadSplitTop (lines : List (List Char)) : Bool :=
  match lines with
  | [l0, l1] =>
    let left := trimL l0
    let right := trimL l1
    if left = [] || right = [] then true
    else
      let leftWords := wordsOf left
      let rightWords := wordsOf right
      let lastLeft := lowerL (leftWords.getLast?.getD [])
      let firstRight := lowerL (rightWords.head?.getD [])
      if (["and", "but", "or", "so"].map String.data).contains lastLeft then true
      else if (["and", "but", "or", "so"].map String.data).contains firstRight then true
      else if isForbiddenSplitL lastLeft firstRight then true
      else if leftWords.length < 2 || rightWords.length < 2 then true
      else false
  | _ => false

/-- The compliance notion of C4: at most 2 lines, every line within the
visible limit, and no 2-line cue judged a bad split by the top-level
predicate. -/
def compliantCue (s : Subtitle) : Bool :=
  s.text.length ≤ 2 &&
  s.text.all (fun l => visibleLength l ≤ MAX_CHARS) &&
  !isBadSplitTop (s.text.map String.data)

def compliant (subs : List Subtitle) : Bool := subs.all compliantCue

/-- Every strong punctuation mark `.!?;` is followed by a whitespace
character or ends the text. -/
def punctSpaced : List Char → Bool
  | [] => true
  | [_] => true
  | c :: d :: rest => (!isHardPunct c || isSpace d) && punctSpaced (d :: rest)

/-- No two adjacent whitespace characters. -/
def singleSpaced : List Char → Bool
  | [] => true
  | [_] => true
  | c :: d :: rest => !(isSpace c && isSpace d) && singleSpaced (d :: rest)

/-- Every whitespace character is a plain space. -/
def onlyPlainSpaces (t : List Char) : Bool :=
  t.all fun c => !isSpace c || c = ' '

/-- The partition property claimed for `splitTime`: contiguous ordered
sub-ranges whose union is exactly `[s, e]` (first start `s`, last end
`e`, each end meeting the next start, every range forward). -/
def goodPartition (ps : List (Nat × Nat)) (s e : Nat) : Prop :=
  (∀ i : Fin ps.length, ∀ j : Fin ps.length, (j : Nat) = (i : Nat) + 1 →
      (ps.get i).2 = (ps.get j).1) ∧
  (∀ i : Fin ps.length, (ps.get i).1 < (ps.get i).2) ∧
  ps.head?.map Prod.fst = some s ∧
  ps.getLast?.map Prod.snd = some e

/-!
## Lemmas and claim theorems
-/

lemma splitFirst_eq (c : Char) :
    ∀ l a b, splitFirst c l = some (a, b) → l = a ++ c :: b := by
  intro l
  induction l with
  | nil => intro a b h; simp [splitFirst] at h
  | cons x xs ih =>
    intro a b h
    by_cases hx : x = c
    · simp only [splitFirst, if_pos hx] at h
      obtain ⟨rfl, rfl⟩ : [] = a ∧ xs = b := by
        constructor <;> [exact (Prod.mk.injEq _ _ _ _ ▸ (Option.some.injEq _ _ ▸ h)).1;
          exact (Prod.mk.injEq _ _ _ _ ▸ (Option.some.injEq _ _ ▸ h)).2]
      simp [hx]
    · simp only [splitFirst, if_neg hx] at h
      cases hsp : splitFirst c xs with
      | none => rw [hsp] at h; simp at h
      | some p =>
        obtain ⟨a', b'⟩ := p
        rw [hsp] at h
        obtain ⟨rfl, rfl⟩ : x :: a' = a ∧ b' = b := by
          constructor <;> [exact (Prod.mk.injEq _ _ _ _ ▸ (Option.some.injEq _ _ ▸ h)).1;
            exact (Prod.mk.injEq _ _ _ _ ▸ (Option.some.injEq _ _ ▸ h)).2]
        have := ih a' b' hsp
        rw [this]
        simp

lemma splitFirst_snd_lt (c : Char) (l a b : List Char)
    (h : splitFirst c l = some (a, b)) : b.length < l.length := by
  have := splitFirst_eq c l a b h
  subst this
  simp
  omega

lemma visibleTextF_length_le (f : Nat) :
    ∀ l : List Char, (visibleTextF f l).length ≤ l.length := by
  induction f with
  | zero => intro l; simp [visibleTextF]
  | succ f ih =>
    intro l
    cases l with
    | nil => simp [visibleTextF]
    | cons c cs =>
      simp only [visibleTextF]
      by_cases h1 : c = '{'
      · rw [if_pos h1]
        cases hsp : splitFirst '}' cs with
        | none => simpa using ih cs
        | some p =>
          obtain ⟨a, b⟩ := p
          have hb := splitFirst_snd_lt '}' cs a b hsp
          have := ih b
          simp only [List.length_cons]
          omega
      · rw [if_neg h1]
        by_cases h2 : c = '<'
        · rw [if_pos h2]
          cases hsp : splitFirst '>' cs with
          | none => simpa using ih cs
          | some p =>
            obtain ⟨a, b⟩ := p
            cases a with
            | nil => simpa using ih cs
            | cons a0 as =>
              have hb := splitFirst_snd_lt '>' cs (a0 :: as) b hsp
              have := ih b
              simp only [List.length_cons]
              omega
        · rw [if_neg h2]
          simpa using ih cs

lemma visibleTextF_fuel_eq : ∀ (f g : Nat) (l : List Char),
    l.length < f → l.length < g → visibleTextF f l = visibleTextF g l := by
  intro f
  induction f with
  | zero => intro g l hf; omega
  | succ f ih =>
    intro g l hf hg
    cases g with
    | zero => omega
    | succ g =>
      cases l with
      | nil => simp [visibleTextF]
      | cons c cs =>
        have hcs : cs.length < f := by simp at hf; omega
        have hcs' : cs.length < g := by simp at hg; omega
        simp only [visibleTextF]
        by_cases h1 : c = '{'
        · rw [if_pos h1, if_pos h1]
          cases hsp : splitFirst '}' cs with
          | none => dsimp only; rw [ih g cs hcs hcs']
          | some p =>
            obtain ⟨a, b⟩ := p
            have hb := splitFirst_snd_lt '}' cs a b hsp
            dsimp only
            rw [ih g b (by omega) (by omega)]
        · rw [if_neg h1, if_neg h1]
          by_cases h2 : c = '<'
          · rw [if_pos h2, if_pos h2]
            cases hsp : splitFirst '>' cs with
            | none => dsimp only; rw [ih g cs hcs hcs']
            | some p =>
              obtain ⟨a, b⟩ := p
              cases a with
              | nil => dsimp only; rw [ih g cs hcs hcs']
              | cons a0 as =>
                have hb := splitFirst_snd_lt '>' cs (a0 :: as) b hsp
                dsimp only
                rw [ih g b (by omega) (by omega)]
          · rw [if_neg h2, if_neg h2, ih g cs hcs hcs']

lemma visibleTextF_canon (f : Nat) (l : List Char) (h : l.length < f) :
    visibleTextF f l = visibleTextL l :=
  visibleTextF_fuel_eq f (l.length + 1) l h (by omega)

/-- Step equation for `visibleTextL`, free of fuel. -/
lemma visibleTextL_cons (c : Char) (cs : List Char) :
    visibleTextL (c :: cs) =
      if c = '{' then
        (match splitFirst '}' cs with
         | some (_, post) => visibleTextL post
         | none => '{' :: visibleTextL cs)
      else if c = '<' then
        (match splitFirst '>' cs with
         | some ([], _) => '<' :: visibleTextL cs
         | some (_ :: _, post) => visibleTextL post
         | none => '<' :: visibleTextL cs)
      else c :: visibleTextL cs := by
  show visibleTextF (cs.length + 2) (c :: cs) = _
  simp only [visibleTextF]
  by_cases h1 : c = '{'
  · rw [if_pos h1, if_pos h1]
    cases hsp : splitFirst '}' cs with
    | none => dsimp only; rw [visibleTextF_canon (cs.length + 1) cs (by omega)]
    | some p =>
      obtain ⟨a, b⟩ := p
      have hb := splitFirst_snd_lt '}' cs a b hsp
      dsimp only
      rw [visibleTextF_canon (cs.length + 1) b (by omega)]
  · rw [if_neg h1, if_neg h1]
    by_cases h2 : c = '<'
    · rw [if_pos h2, if_pos h2]
      cases hsp : splitFirst '>' cs with
      | none => dsimp only; rw [visibleTextF_canon (cs.length + 1) cs (by omega)]
      | some p =>
        obtain ⟨a, b⟩ := p
        cases a with
        | nil => dsimp only; rw [visibleTextF_canon (cs.length + 1) cs (by omega)]
        | cons a0 as =>
          have hb := splitFirst_snd_lt '>' cs (a0 :: as) b hsp
          dsimp only
          rw [visibleTextF_canon (cs.length + 1) b (by omega)]
    · rw [if_neg h2, if_neg h2, visibleTextF_canon (cs.length + 1) cs (by omega)]

lemma visibleLenL_le_length (l : List Char) : visibleLenL l ≤ l.length :=
  visibleTextF_length_le (l.length + 1) l

lemma isSpace_ne_delims {c : Char} (h : isSpace c = true) : c ≠ '{' ∧ c ≠ '<' := by
  constructor <;> intro he <;> subst he <;> exact absurd h (by decide)

lemma visibleTextL_cons_space {c : Char} (cs : List Char) (h : isSpace c = true) :
    visibleTextL (c :: cs) = c :: visibleTextL cs := by
  obtain ⟨h1, h2⟩ := isSpace_ne_delims h
  rw [visibleTextL_cons, if_neg h1, if_neg h2]

lemma visibleLenL_ltrim_le : ∀ l : List Char,
    visibleLenL (l.dropWhile fun c => isSpace c) ≤ visibleLenL l := by
  intro l
  induction l with
  | nil => simp
  | cons c cs ih =>
    by_cases h : isSpace c = true
    · rw [List.dropWhile_cons_of_pos (by simpa using h)]
      have : visibleLenL (c :: cs) = visibleLenL cs + 1 := by
        simp [visibleLenL, visibleTextL_cons_space cs h]
      omega
    · rw [List.dropWhile_cons_of_neg (by simpa using h)]

/-- No trailing whitespace. -/
def noTrailWs (l : List Char) : Prop :=
  ∀ c, l.getLast? = some c → isSpace c = false

lemma getLast?_append_right (l₁ l₂ : List Char) (h : l₂ ≠ []) :
    (l₁ ++ l₂).getLast? = l₂.getLast? := by
  rw [← List.head?_reverse, ← List.head?_reverse (l := l₂), List.reverse_append]
  cases hr : l₂.reverse with
  | nil => exact absurd (by simpa using congrArg List.reverse hr) h
  | cons c cs => simp

lemma head?_dropWhile_not (p : Char → Bool) :
    ∀ (l : List Char) (c : Char), (l.dropWhile p).head? = some c → p c = false := by
  intro l
  induction l with
  | nil => intro c h; simp at h
  | cons x xs ih =>
    intro c h
    by_cases hx : p x = true
    · rw [List.dropWhile_cons_of_pos (by simpa using hx)] at h
      exact ih c h
    · rw [List.dropWhile_cons_of_neg (by simpa using hx)] at h
      simp at h
      subst h
      simpa using hx

lemma noTrailWs_rtrim (l : List Char) :
    noTrailWs ((l.reverse.dropWhile fun c => isSpace c).reverse) := by
  intro c hc
  rw [List.getLast?_reverse] at hc
  exact head?_dropWhile_not _ l.reverse c hc

lemma noTrailWs_trimL (l : List Char) : noTrailWs (trimL l) :=
  noTrailWs_rtrim _

lemma noTrailWs_normalizeL (l : List Char) : noTrailWs (normalizeL l) :=
  noTrailWs_trimL _

lemma noTrailWs_joinTokensL (ts : List (List Char)) : noTrailWs (joinTokensL ts) :=
  noTrailWs_normalizeL _

lemma noTrailWs_drop (l : List Char) (n : Nat) (h : noTrailWs l) :
    noTrailWs (l.drop n) := by
  intro c hc
  have hne : l.drop n ≠ [] := by
    intro he
    rw [he] at hc
    simp at hc
  have heq : l.getLast? = (l.drop n).getLast? := by
    conv_lhs => rw [← List.take_append_drop n l]
    exact getLast?_append_right _ _ hne
  exact h c (heq ▸ hc)

lemma rtrim_eq_of_noTrail (l : List Char) (h : noTrailWs l) :
    (l.reverse.dropWhile fun c => isSpace c).reverse = l := by
  cases hl : l.reverse with
  | nil =>
    have : l = [] := by simpa using congrArg List.reverse hl
    simp [this]
  | cons c cs =>
    have hlast : l.getLast? = some c := by
      rw [← List.head?_reverse, hl]
      rfl
    have hns := h c hlast
    have hd : List.dropWhile (fun c => isSpace c) (c :: cs) = c :: cs :=
      List.dropWhile_cons_of_neg (by simp [hns])
    rw [hd, ← hl, List.reverse_reverse]

lemma ltrim_noTrail (l : List Char) (h : noTrailWs l) :
    noTrailWs (l.dropWhile fun c => isSpace c) := by
  intro c hc
  have hne : (l.dropWhile fun c => isSpace c) ≠ [] := by
    intro he
    rw [he] at hc
    simp at hc
  have : l.getLast? = (l.dropWhile fun c => isSpace c).getLast? := by
    obtain ⟨t, ht⟩ : ∃ t, l = t ++ l.dropWhile fun c => isSpace c :=
      ⟨l.takeWhile fun c => isSpace c, (List.takeWhile_append_dropWhile _ _).symm⟩
    conv_lhs => rw [ht]
    exact getLast?_append_right _ _ hne
  exact h c (this ▸ hc)

lemma trimL_eq_ltrim_of_noTrail (l : List Char) (h : noTrailWs l) :
    trimL l = l.dropWhile fun c => isSpace c := by
  unfold trimL
  exact rtrim_eq_of_noTrail _ (ltrim_noTrail l h)

lemma visibleLenL_trim_le (l : List Char) (h : noTrailWs l) :
    visibleLenL (trimL l) ≤ visibleLenL l := by
  rw [trimL_eq_ltrim_of_noTrail l h]
  exact visibleLenL_ltrim_le l

lemma cutCount_spec : ∀ (toks pre : List (List Char)), 0 < cutCount pre toks →
    visibleLenL (joinTokensL (pre ++ toks.take (cutCount pre toks))) ≤ MAX_CHARS
  | [], pre => by simp [cutCount]
  | t :: rest, pre => by
    intro hpos
    by_cases h : visibleLenL (joinTokensL (pre ++ [t])) ≤ MAX_CHARS
    · rw [cutCount, if_pos h]
      by_cases h2 : 0 < cutCount (pre ++ [t]) rest
      · have hrec := cutCount_spec rest (pre ++ [t]) h2
        rw [List.take_succ_cons]
        simpa [List.append_assoc] using hrec
      · have hz : cutCount (pre ++ [t]) rest = 0 := by omega
        rw [hz]
        simpa using h
    · rw [cutCount, if_neg h] at hpos
      simp at hpos

lemma hardWrapF_le (f : Nat) : ∀ (rem : List Char), noTrailWs rem →
    ∀ x ∈ hardWrapF f rem, visibleLenL x ≤ MAX_CHARS := by
  induction f with
  | zero => intro rem _ x hx; simp [hardWrapF] at hx
  | succ f ih =>
    intro rem hrem x hx
    simp only [hardWrapF] at hx
    by_cases h1 : visibleLenL rem ≤ MAX_CHARS
    · rw [if_pos h1] at hx
      by_cases h2 : trimL rem = []
      · rw [if_pos h2] at hx
        simp at hx
      · rw [if_neg h2] at hx
        simp at hx
        subst hx
        exact le_trans (visibleLenL_trim_le rem hrem) h1
    · rw [if_neg h1] at hx
      by_cases hz : cutCount [] (tokenizeL rem) = 0
      · rw [if_pos hz] at hx
        rcases List.mem_cons.mp hx with rfl | hx'
        · exact le_trans (visibleLenL_le_length _)
            (le_trans (List.length_take_le _ _) (le_refl _))
        · exact ih _ (noTrailWs_drop rem _ hrem) x hx'
      · rw [if_neg hz] at hx
        rcases List.mem_cons.mp hx with rfl | hx'
        · have hpos : 0 < cutCount [] (tokenizeL rem) := Nat.pos_of_ne_zero hz
          simpa using cutCount_spec (tokenizeL rem) [] hpos
        · exact ih _ (noTrailWs_joinTokensL _) x hx'

lemma splitChunkLoop_noTrail (f : Nat) : ∀ (toks : List (List Char)),
    ∀ x ∈ splitChunkLoop f toks, noTrailWs x := by
  induction f with
  | zero => intro toks x hx; simp [splitChunkLoop] at hx
  | succ f ih =>
    intro toks x hx
    cases toks with
    | nil => simp [splitChunkLoop] at hx
    | cons t ts =>
      simp only [splitChunkLoop] at hx
      by_cases h1 : visibleLenL (joinTokensL (t :: ts)) ≤ MAX_CHARS
      · rw [if_pos h1] at hx
        simp at hx
        subst hx
        exact noTrailWs_joinTokensL _
      · rw [if_neg h1] at hx
        by_cases h2 : ((if findBestSplitTokenIndexL (t :: ts) = -1 then
              greedySplitTokenIndexL (t :: ts) else findBestSplitTokenIndexL (t :: ts)) ≤ 0 ||
            (if findBestSplitTokenIndexL (t :: ts) = -1 then
              greedySplitTokenIndexL (t :: ts) else findBestSplitTokenIndexL (t :: ts)) ≥
              ((t :: ts).length : Int)) = true
        · rw [if_pos h2] at hx
          by_cases h3 : trimL (joinTokensL (t :: ts)) = []
          · rw [if_pos h3] at hx
            simp at hx
          · rw [if_neg h3] at hx
            simp at hx
            subst hx
            exact noTrailWs_trimL _
        · rw [if_neg h2] at hx
          rcases List.mem_append.mp hx with hx' | hx'
          · by_cases h4 : trimL (joinTokensL (List.take
                (if findBestSplitTokenIndexL (t :: ts) = -1 then
                  greedySplitTokenIndexL (t :: ts) else
                  findBestSplitTokenIndexL (t :: ts)).toNat (t :: ts))) = []
            · rw [if_pos h4] at hx'
              simp at hx'
            · rw [if_neg h4] at hx'
              simp at hx'
              subst hx'
              exact noTrailWs_trimL _
          · exact ih _ x hx'

lemma splitChunkIntoLinesL_noTrail (chunk : List Char) :
    ∀ x ∈ splitChunkIntoLinesL chunk, noTrailWs x := by
  intro x hx
  simp only [splitChunkIntoLinesL] at hx
  by_cases h1 : visibleLenL (joinTokensL (tokenizeL chunk)) ≤ MAX_CHARS
  · rw [if_pos h1] at hx
    simp at hx
    subst hx
    exact noTrailWs_joinTokensL _
  · rw [if_neg h1] at hx
    exact splitChunkLoop_noTrail _ _ x hx

lemma chunkLines_noTrail (c : List Char) : ∀ x ∈ chunkLines c, noTrailWs x := by
  intro x hx
  simp only [chunkLines] at hx
  by_cases h1 : trimL c = []
  · rw [if_pos h1] at hx
    simp at hx
  · rw [if_neg h1] at hx
    by_cases h2 : visibleLenL (trimL c) ≤ MAX_CHARS
    · rw [if_pos h2] at hx
      simp at hx
      subst hx
      exact noTrailWs_trimL _
    · rw [if_neg h2] at hx
      exact splitChunkIntoLinesL_noTrail _ x (List.mem_of_mem_filter hx)

lemma guardLine_le (line : List Char) (h : noTrailWs line) :
    ∀ x ∈ guardLine line, visibleLenL x ≤ MAX_CHARS := by
  intro x hx
  simp only [guardLine] at hx
  by_cases h1 : visibleLenL line ≤ MAX_CHARS
  · rw [if_pos h1] at hx
    simp at hx
    subst hx
    exact h1
  · rw [if_neg h1] at hx
    exact hardWrapF_le _ line h x hx

/-- Every line produced by `splitToLines` has visible length at most
`MAX_CHARS`, whatever the input. -/
lemma splitToLinesL_le (t : List Char) :
    ∀ x ∈ splitToLinesL t, visibleLenL x ≤ MAX_CHARS := by
  intro x hx
  simp only [splitToLinesL] at hx
  by_cases h0 : normalizeL t = []
  · rw [if_pos h0] at hx
    simp at hx
  · rw [if_neg h0] at hx
    by_cases h1 : visibleLenL (normalizeL t) ≤ MAX_CHARS
    · rw [if_pos h1] at hx
      simp at hx
      subst hx
      exact h1
    · rw [if_neg h1] at hx
      obtain ⟨gl, hgl, hxg⟩ := List.mem_flatten.mp hx
      obtain ⟨line, hline, rfl⟩ := List.mem_map.mp hgl
      obtain ⟨cl, hcl, hlinec⟩ := List.mem_flatten.mp hline
      obtain ⟨c, _, rfl⟩ := List.mem_map.mp hcl
      exact guardLine_le line (chunkLines_noTrail c line hlinec) x hxg

lemma splitToLines_le (s : String) :
    ∀ l ∈ splitToLines s, visibleLength l ≤ MAX_CHARS := by
  intro l hl
  obtain ⟨x, hx, rfl⟩ := List.mem_map.mp hl
  exact splitToLinesL_le s.data x hx

lemma pairUp_mem {α : Type} : ∀ (xs : List α) (c : List α), c ∈ pairUp xs →
    c.length ≤ 2 ∧ ∀ a ∈ c, a ∈ xs
  | [], c => by simp [pairUp]
  | [a], c => by
    intro hc
    simp only [pairUp, List.mem_singleton] at hc
    subst hc
    exact ⟨by simp, by simp⟩
  | a :: b :: r, c => by
    intro hc
    simp only [pairUp, List.mem_cons] at hc
    rcases hc with rfl | hc
    · refine ⟨by simp, ?_⟩
      intro x hx
      simp only [List.mem_cons] at hx ⊢
      tauto
    · have := pairUp_mem r c hc
      refine ⟨this.1, ?_⟩
      intro x hx
      have := this.2 x hx
      simp only [List.mem_cons]
      tauto

lemma splitIntoEvents_good (text time : String) (idx : Nat) :
    ∀ e ∈ splitIntoEvents text time idx,
      e.text.length ≤ 2 ∧ ∀ l ∈ e.text, visibleLength l ≤ MAX_CHARS := by
  intro e he
  simp only [splitIntoEvents] at he
  by_cases hbr : ((pairUp (splitToLines text)).length = 1 &&
      !(splitToLines text).any fun l => visibleLengthLocal l > MAX_CHARS) = true
  · rw [if_pos hbr] at he
    simp only [List.mem_singleton] at he
    subst he
    simp only [Bool.and_eq_true, decide_eq_true_eq, Bool.not_eq_true'] at hbr
    obtain ⟨hlen, hill⟩ := hbr
    obtain ⟨c, hc⟩ := List.length_eq_one.mp hlen
    have hcm : c ∈ pairUp (splitToLines text) := by
      rw [hc]
      simp
    have hp := pairUp_mem _ c hcm
    have hall : ∀ l ∈ splitToLines text, visibleLengthLocal l ≤ MAX_CHARS := by
      intro l hlm
      have := List.any_eq_false.mp hill l hlm
      simpa using this
    constructor
    · simpa [hc] using hp.1
    · intro l hlm
      have : l ∈ splitToLines text := hp.2 l (by simpa [hc] using hlm)
      exact hall l this
  · rw [if_neg hbr] at he
    obtain ⟨ci, hci, rfl⟩ := List.mem_map.mp he
    have hcm : ci.2 ∈ pairUp (splitToLines text) := by
      rw [List.mem_enum_iff_getElem?] at hci
      exact List.getElem?_mem hci
    have hp := pairUp_mem _ ci.2 hcm
    exact ⟨hp.1, fun l hlm => splitToLines_le text l (hp.2 l hlm)⟩

/-- C1: every cue returned by `fixSubtitles` has at most 2 text lines
and every line has visible length at most 42. -/
theorem claim_C1 (subs : List Subtitle) :
    ∀ e ∈ fixSubtitles subs,
      e.text.length ≤ 2 ∧ ∀ l ∈ e.text, visibleLength l ≤ MAX_CHARS := by
  suffices h : ∀ (ss : List Subtitle) (idx : Nat), ∀ e ∈ fixLoop ss idx,
      e.text.length ≤ 2 ∧ ∀ l ∈ e.text, visibleLength l ≤ MAX_CHARS by
    exact h subs 1
  intro ss
  induction ss with
  | nil => intro idx e he; simp [fixLoop] at he
  | cons sub rest ih =>
    intro idx e he
    simp only [fixLoop] at he
    rcases List.mem_append.mp he with he' | he'
    · simp only [reindex] at he'
      obtain ⟨ie, hie, rfl⟩ := List.mem_map.mp he'
      have hmem : ie.2 ∈ splitIntoEvents
          ⟨normalizeL (List.intercalate [' '] (sub.text.map String.data))⟩ sub.time idx := by
        rw [List.mem_enum_iff_getElem?] at hie
        exact List.getElem?_mem hie
      have := splitIntoEvents_good _ sub.time idx ie.2 hmem
      simpa using this
    · exact ih _ e he'

/-- A concrete output cue of `fixSubtitles`, used as the C1 witness. -/
def c1out : Subtitle := { index := 1, time := "00:00:01,000 --> 00:00:02,000", text := ["hi"], wasSplit := some false }

/-- Witness for C1 at a concrete one-cue input. -/
theorem claim_C1_witness :
    c1out.text.length ≤ 2 ∧ ∀ l ∈ c1out.text, visibleLength l ≤ MAX_CHARS :=
  claim_C1 [{ index := 7, time := "00:00:01,000 --> 00:00:02,000", text := ["hi"] }]
    c1out (by decide)

lemma splitTimePairs_step (s e n : Nat) (hn : 0 < n) (h2 : n ≤ e - s) :
    max 1 ((e - s) / n) = (e - s) / n := by
  have : 1 ≤ (e - s) / n := (Nat.one_le_div_iff hn).mpr h2
  omega

lemma splitTimePairs_get (s e n : Nat) (hn : 0 < n) (h2 : n ≤ e - s)
    (i : Nat) (hi : i < n) :
    (splitTimePairs s e n).get ⟨i, by simpa [splitTimePairs] using hi⟩ =
      (s + i * ((e - s) / n),
       if i = n - 1 then e else s + i * ((e - s) / n) + (e - s) / n) := by
  simp [splitTimePairs, splitTimePairs_step s e n hn h2, List.get_eq_getElem]

lemma splitTimePairs_good (s e n : Nat) (h1 : 1 ≤ n) (h2 : n ≤ e - s) :
    goodPartition (splitTimePairs s e n) s e := by
  have hn : 0 < n := h1
  have hlen : (splitTimePairs s e n).length = n := by simp [splitTimePairs]
  have hq1 : 1 ≤ (e - s) / n := (Nat.one_le_div_iff hn).mpr h2
  have hqd : n * ((e - s) / n) ≤ e - s := by
    calc n * ((e - s) / n) = (e - s) / n * n := Nat.mul_comm _ _
      _ ≤ e - s := Nat.div_mul_le_self (e - s) n
  have hse : s ≤ e := by omega
  have hkey : (n - 1) * ((e - s) / n) + (e - s) / n = n * ((e - s) / n) := by
    obtain ⟨m, rfl⟩ : ∃ m, n = m + 1 := ⟨n - 1, by omega⟩
    simp [Nat.succ_mul]
  refine ⟨?_, ?_, ?_, ?_⟩
  · intro i j hij
    have hi : (i : Nat) < n := by omega
    have hj : (j : Nat) < n := by omega
    have h1' := splitTimePairs_get s e n hn h2 i hi
    have h2' := splitTimePairs_get s e n hn h2 j hj
    have hine : (i : Nat) ≠ n - 1 := by omega
    rw [show i = (⟨(i : Nat), by simpa [splitTimePairs] using hi⟩ :
          Fin (splitTimePairs s e n).length) from by ext; rfl,
        show j = (⟨(j : Nat), by simpa [splitTimePairs] using hj⟩ :
          Fin (splitTimePairs s e n).length) from by ext; rfl,
        h1', h2']
    simp only [if_neg hine, hij, Nat.succ_mul]
    omega
  · intro i
    have hi : (i : Nat) < n := by omega
    have h1' := splitTimePairs_get s e n hn h2 i hi
    rw [show i = (⟨(i : Nat), by simpa [splitTimePairs] using hi⟩ :
          Fin (splitTimePairs s e n).length) from by ext; rfl, h1']
    by_cases hc : (i : Nat) = n - 1
    · rw [show (if (i : Nat) = n - 1 then e
          else s + (i : Nat) * ((e - s) / n) + (e - s) / n) = e from if_pos hc]
      have hieq : (i : Nat) * ((e - s) / n) = (n - 1) * ((e - s) / n) := by rw [hc]
      omega
    · simp only [if_neg hc]
      omega
  · obtain ⟨m, rfl⟩ : ∃ m, n = m + 1 := ⟨n - 1, by omega⟩
    simp [splitTimePairs, splitTimePairs_step s e (m + 1) hn h2,
      List.range_succ_eq_map]
  · obtain ⟨m, rfl⟩ : ∃ m, n = m + 1 := ⟨n - 1, by omega⟩
    simp [splitTimePairs, splitTimePairs_step s e (m + 1) hn h2,
      List.range_succ, List.getLast?_concat]

/-- C2 (corrected), counterexample: for the 2-millisecond interval
`00:00:00,000 → 00:00:00,002` and `n = 5` the returned ranges are not a
contiguous ordered partition of the interval (the last range runs
backwards, `(4, 2)`), although start is earlier than end and `n ≥ 1`. -/
theorem claim_C2_counterexample :
    timeToMs "00:00:00,000" < timeToMs "00:00:00,002" ∧ 1 ≤ 5 ∧
    ¬ goodPartition
        (splitTimePairs (timeToMs "00:00:00,000") (timeToMs "00:00:00,002") 5)
        (timeToMs "00:00:00,000") (timeToMs "00:00:00,002") := by
  refine ⟨by decide, by decide, ?_⟩
  intro h
  have := h.2.1 ⟨4, by decide⟩
  revert this
  decide

/-- C2 (amended): whenever the interval is at least `n` milliseconds
long (`n ≤ end − start`, `n ≥ 1`), `splitTime` returns exactly `n`
ranges and their millisecond pairs are contiguous, ordered and
partition `[start, end]` exactly. -/
theorem claim_C2 (start e : String) (n : Nat) (h1 : 1 ≤ n)
    (h2 : n ≤ timeToMs e - timeToMs start) :
    (splitTime start e n).length = n ∧
    goodPartition (splitTimePairs (timeToMs start) (timeToMs e) n)
      (timeToMs start) (timeToMs e) := by
  refine ⟨?_, splitTimePairs_good _ _ _ h1 h2⟩
  simp [splitTime, splitTimePairs]

/-- C2 witness: the amended theorem applied to
`00:00:01,000 → 00:00:07,000`, `n = 2`. -/
theorem claim_C2_witness :
    (1 ≤ 2 ∧ 2 ≤ timeToMs "00:00:07,000" - timeToMs "00:00:01,000") ∧
    ((splitTime "00:00:01,000" "00:00:07,000" 2).length = 2 ∧
     goodPartition (splitTimePairs (timeToMs "00:00:01,000") (timeToMs "00:00:07,000") 2)
       (timeToMs "00:00:01,000") (timeToMs "00:00:07,000")) :=
  ⟨⟨by decide, by decide⟩,
   claim_C2 "00:00:01,000" "00:00:07,000" 2 (by decide) (by decide)⟩

/-- C9: `isForbiddenSplit("the", "plan")` is true and
`isForbiddenSplit("go", "home")` is false (rules module used by the
splitter). -/
theorem claim_C9 :
    isForbiddenSplit "the" "plan" = true ∧ isForbiddenSplit "go" "home" = false := by
  decide

/-- The reduced `rules.ts` variant (not importable by the splitter — it
lacks `calculateSplitQuality`) disagrees on the second example: its
`prev.length ≤ 3 && next.length > 3` heuristic fires on `("go","home")`. -/
theorem isForbiddenSplitLegacy_go_home :
    isForbiddenSplitLegacy "go" "home" = true := by decide

/-- C6 (corrected), counterexample: `"a  b"` has visible length `4 ≤ 42`
but `splitToLines` first collapses whitespace, returning `["a b"]`, not
`["a  b"]`. -/
theorem claim_C6_counterexample :
    visibleLength "a  b" ≤ MAX_CHARS ∧ splitToLines "a  b" ≠ ["a  b"] := by
  decide

lemma splitToLinesL_singleton (l : List Char) (hl : l ≠ [])
    (h2 : normalizeL l = l) (h3 : visibleLenL l ≤ MAX_CHARS) :
    splitToLinesL l = [l] := by
  rw [splitToLinesL, h2, if_neg hl, if_pos h3]

/-- C6 (amended): for every non-empty, already-normalized (single-spaced,
trimmed) cue text of visible length at most 42, `splitToLines` returns
exactly `[t]` unchanged. -/
theorem claim_C6 (t : String) (h1 : t ≠ "") (h2 : normalizeL t.data = t.data)
    (h3 : visibleLength t ≤ MAX_CHARS) : splitToLines t = [t] := by
  obtain ⟨l⟩ := t
  have hl : l ≠ [] := fun h => h1 (by rw [show ("" : String) = ⟨[]⟩ from rfl, h])
  show (splitToLinesL l).map (fun x => (⟨x⟩ : String)) = [⟨l⟩]
  rw [splitToLinesL_singleton l hl h2 h3]
  rfl

/-- C6 witness. -/
theorem claim_C6_witness :
    (("hi" : String) ≠ "" ∧ normalizeL "hi".data = "hi".data ∧
      visibleLength "hi" ≤ MAX_CHARS) ∧
    splitToLines "hi" = ["hi"] :=
  ⟨⟨by decide, by decide, by decide⟩,
   claim_C6 "hi" (by decide) (by decide) (by decide)⟩

lemma intercalate_single (sep : List Char) (x : List Char) :
    List.intercalate sep [x] = x := by
  simp [List.intercalate]

lemma splitToLines_singleton_str (l : String) (hl : l ≠ "")
    (h2 : normalizeL l.data = l.data) (h3 : visibleLength l ≤ MAX_CHARS) :
    splitToLines l = [l] := by
  obtain ⟨ld⟩ := l
  have hld : ld ≠ [] := fun h => hl (by rw [show ("" : String) = ⟨[]⟩ from rfl, h])
  show (splitToLinesL ld).map (fun x => (⟨x⟩ : String)) = [⟨ld⟩]
  rw [splitToLinesL_singleton ld hld h2 h3]
  rfl

lemma splitIntoEvents_single (l time : String) (idx : Nat) (hl : l ≠ "")
    (h2 : normalizeL l.data = l.data) (h3 : visibleLength l ≤ MAX_CHARS) :
    splitIntoEvents l time idx =
      [{ index := idx, time := time, text := [l], wasSplit := some false }] := by
  have hsp := splitToLines_singleton_str l hl h2 h3
  have h3' : (visibleLengthLocal l > MAX_CHARS) = False := by
    simp only [gt_iff_lt, eq_iff_iff, iff_false, not_lt]
    exact h3
  simp [splitIntoEvents, hsp, pairUp, h3']

/-- C4 (corrected), counterexample: the cue
`["we watched movies", "at home"]` is compliant (2 lines, both within
the limit, not a bad split by the top-level predicate), yet
`fixSubtitles` joins the lines and re-wraps: the joined text fits one
line, so the cue comes back as the single line
`["we watched movies at home"]`. -/
theorem claim_C4_counterexample :
    compliant [{ index := 1, time := "00:00:01,000 --> 00:00:02,000",
                 text := ["we watched movies", "at home"] }] = true ∧
    (fixSubtitles [{ index := 1, time := "00:00:01,000 --> 00:00:02,000",
                     text := ["we watched movies", "at home"] }]).map Subtitle.text ≠
      [["we watched movies", "at home"]] := by
  decide

/-- C4 (amended): `fixSubtitles` preserves line text (and timecodes) on
every cue list whose cues each consist of exactly one non-empty,
whitespace-normalized line of visible length at most 42; only the index
(and `wasSplit`) fields change. -/
theorem claim_C4 (subs : List Subtitle)
    (h : ∀ s ∈ subs, s.text.length = 1 ∧
      ∀ l ∈ s.text, l ≠ "" ∧ normalizeL l.data = l.data ∧ visibleLength l ≤ MAX_CHARS) :
    (fixSubtitles subs).map Subtitle.text = subs.map Subtitle.text ∧
    (fixSubtitles subs).map Subtitle.time = subs.map Subtitle.time := by
  suffices hh : ∀ (ss : List Subtitle) (idx : Nat),
      (∀ s ∈ ss, s.text.length = 1 ∧
        ∀ l ∈ s.text, l ≠ "" ∧ normalizeL l.data = l.data ∧ visibleLength l ≤ MAX_CHARS) →
      (fixLoop ss idx).map Subtitle.text = ss.map Subtitle.text ∧
      (fixLoop ss idx).map Subtitle.time = ss.map Subtitle.time by
    exact hh subs 1 h
  intro ss
  induction ss with
  | nil => intro idx _; simp [fixLoop]
  | cons sub rest ih =>
    intro idx hss
    have hsub := hss sub (List.mem_cons_self sub rest)
    obtain ⟨l, hlq⟩ := List.length_eq_one.mp hsub.1
    have hprops := hsub.2 l (by rw [hlq]; simp)
    obtain ⟨hl, h2, h3⟩ := hprops
    have hrest : ∀ s ∈ rest, s.text.length = 1 ∧
        ∀ l ∈ s.text, l ≠ "" ∧ normalizeL l.data = l.data ∧ visibleLength l ≤ MAX_CHARS :=
      fun s hs => hss s (List.mem_cons_of_mem sub hs)
    have hfull : (⟨normalizeL (List.intercalate [' '] (sub.text.map String.data))⟩ : String) = l := by
      rw [hlq]
      show (⟨normalizeL (List.intercalate [' '] [l.data])⟩ : String) = l
      rw [intercalate_single, h2]
    simp only [fixLoop, hfull]
    rw [splitIntoEvents_single l sub.time idx hl h2 h3]
    have hre : reindex [({ index := idx, time := sub.time, text := [l], wasSplit := some false } : Subtitle)] idx =
        [({ index := idx + 0, time := sub.time, text := [l], wasSplit := some false } : Subtitle)] := by
      simp [reindex]
    rw [hre]
    have := ih (idx + 1) hrest
    constructor
    · simp only [List.map_append, List.map_cons, List.map_nil,
        List.length_singleton, this.1]
      rw [hlq]
      rfl
    · simp only [List.map_append, List.map_cons, List.map_nil,
        List.length_singleton, this.2]
      rfl

/-- Concrete cue used by the C4 witness. -/
def c4cue : Subtitle :=
  { index := 7, time := "00:00:01,000 --> 00:00:02,000", text := ["hello there"] }

/-- C4 witness: a compliant single-line cue list round-trips through
`fixSubtitles` with text and time unchanged. -/
theorem claim_C4_witness :
    (∀ s ∈ [c4cue], s.text.length = 1 ∧
      ∀ l ∈ s.text, l ≠ "" ∧ normalizeL l.data = l.data ∧ visibleLength l ≤ MAX_CHARS) ∧
    ((fixSubtitles [c4cue]).map Subtitle.text = [c4cue].map Subtitle.text ∧
     (fixSubtitles [c4cue]).map Subtitle.time = [c4cue].map Subtitle.time) :=
  ⟨by decide, claim_C4 [c4cue] (by decide)⟩

lemma punctSpaced_tail {c : Char} {cs : List Char}
    (h : punctSpaced (c :: cs) = true) : punctSpaced cs = true := by
  cases cs with
  | nil => rfl
  | cons d rest =>
    simp only [punctSpaced, Bool.and_eq_true] at h
    exact h.2

lemma punctSpaced_head {c d : Char} {cs : List Char}
    (h : punctSpaced (c :: d :: cs) = true) :
    isHardPunct c = false ∨ isSpace d = true := by
  simp only [punctSpaced, Bool.and_eq_true] at h
  have := h.1
  simpa using this

lemma singleSpaced_tail {c : Char} {cs : List Char}
    (h : singleSpaced (c :: cs) = true) : singleSpaced cs = true := by
  cases cs with
  | nil => rfl
  | cons d rest =>
    simp only [singleSpaced, Bool.and_eq_true] at h
    exact h.2

lemma singleSpaced_head {c d : Char} {cs : List Char}
    (h : singleSpaced (c :: d :: cs) = true) :
    isSpace c = false ∨ isSpace d = false := by
  simp only [singleSpaced, Bool.and_eq_true] at h
  have := h.1
  simpa using this

lemma onlyPlainSpaces_tail {c : Char} {cs : List Char}
    (h : onlyPlainSpaces (c :: cs) = true) : onlyPlainSpaces cs = true := by
  simp only [onlyPlainSpaces, List.all_cons, Bool.and_eq_true] at h ⊢
  exact h.2

lemma onlyPlainSpaces_mem {t : List Char} (h : onlyPlainSpaces t = true)
    {c : Char} (hc : c ∈ t) : isSpace c = false ∨ c = ' ' := by
  simp only [onlyPlainSpaces, List.all_eq_true] at h
  have := h c hc
  simpa using this

lemma hardPunct_not_space {c : Char} (h : isHardPunct c = true) :
    isSpace c = false := by
  simp only [isHardPunct, Bool.or_eq_true, decide_eq_true_eq] at h
  rcases h with ((rfl | rfl) | rfl) | rfl <;> decide

lemma dropWhile_append_head (x y : List Char) (hy : y ≠ [])
    (hh : ∀ c, y.head? = some c → isSpace c = false) :
    List.dropWhile (fun c => isSpace c) (x ++ y) =
      List.dropWhile (fun c => isSpace c) x ++ y := by
  induction x with
  | nil =>
    cases y with
    | nil => exact absurd rfl hy
    | cons c cs =>
      have := hh c rfl
      simp [List.dropWhile_cons, this]
  | cons a xs ih =>
    by_cases ha : isSpace a = true
    · simp only [List.cons_append, List.dropWhile_cons, ha, if_pos rfl]
      exact ih
    · have ha' : isSpace a = false := by revert ha; cases isSpace a <;> simp
      simp [List.cons_append, List.dropWhile_cons, ha']

lemma noTrailWs_of_append_right (x y : List Char) (hy : y ≠ [])
    (h : noTrailWs (x ++ y)) : noTrailWs y := by
  intro c hc
  exact h c ((getLast?_append_right x y hy) ▸ hc)

lemma intercalate_cons_ne (sep x : List Char) (rest : List (List Char))
    (h : rest ≠ []) :
    List.intercalate sep (x :: rest) = x ++ sep ++ List.intercalate sep rest := by
  cases rest with
  | nil => exact absurd rfl h
  | cons y ys =>
    simp [List.intercalate, List.intersperse]

/-- Rejoin property of the hard-punctuation scan: trimming every raw
segment, discarding empties, and interleaving single spaces rebuilds
the trimmed input, provided every punctuation mark is followed by a
plain single space (or ends the text). -/
lemma hardAux_rejoin : ∀ (t buf : List Char),
    punctSpaced t = true → singleSpaced t = true → onlyPlainSpaces t = true →
    noTrailWs (buf.reverse ++ t) →
    List.intercalate [' ']
        (((hardAux t buf).map trimL).filter (· ≠ [])) =
      trimL (buf.reverse ++ t)
  | [], buf => by
    intro _ _ _ _
    simp only [hardAux, List.map_cons, List.map_nil, List.append_nil]
    by_cases h : trimL buf.reverse = []
    · rw [List.filter_cons, if_neg (by simp [h])]
      simp [List.intercalate, h]
    · rw [List.filter_cons, if_pos (by simp [h])]
      simp [List.intercalate, List.intersperse]
  | c :: cs, buf => by
    intro hps hss hop htr
    by_cases hsplit : (isHardPunct c && !decide (cs = [])) = true
    · simp only [Bool.and_eq_true, Bool.not_eq_true', decide_eq_false_iff_not] at hsplit
      obtain ⟨hpc, hcs⟩ := hsplit
      obtain ⟨d, cs'', rfl⟩ : ∃ d cs'', cs = d :: cs'' := by
        cases cs with
        | nil => exact absurd rfl hcs
        | cons d cs'' => exact ⟨d, cs'', rfl⟩
      have hd : isSpace d = true := by
        rcases punctSpaced_head hps with h' | h'
        · exact absurd hpc (by simp [h'])
        · exact h'
      have hd' : d = ' ' := by
        rcases onlyPlainSpaces_mem hop (show d ∈ c :: d :: cs'' by simp) with h' | h'
        · exact absurd hd (by simp [h'])
        · exact h'
      subst hd'
      have htr_cs : noTrailWs (' ' :: cs'') := by
        have hh : noTrailWs ((buf.reverse ++ [c]) ++ ' ' :: cs'') := by
          simpa [List.append_assoc] using htr
        exact noTrailWs_of_append_right _ _ (by simp) hh
      have hcs'' : cs'' ≠ [] := by
        intro he
        subst he
        have := htr_cs ' ' rfl
        simp [isSpace] at this
      have hhead'' : ∀ e, cs''.head? = some e → isSpace e = false := by
        intro e he
        cases cs'' with
        | nil => simp at he
        | cons e0 es =>
          have hee : e0 = e := by simpa using he
          have h3 := singleSpaced_head (singleSpaced_tail hss)
          rcases h3 with h' | h'
          · exact absurd h' (by decide)
          · rw [← hee]; exact h'
      have htr'' : noTrailWs cs'' :=
        noTrailWs_of_append_right [' '] cs'' hcs'' htr_cs
      have htrim_cs : trimL (' ' :: cs'') = cs'' := by
        rw [trimL_eq_ltrim_of_noTrail _ htr_cs]
        rw [show (' ' :: cs'') = [' '] ++ cs'' from rfl,
          dropWhile_append_head [' '] cs'' hcs'' hhead'']
        rw [show List.dropWhile (fun c => isSpace c) [' '] = [] from by decide]
        simp
      have hrec := hardAux_rejoin (' ' :: cs'') [] (punctSpaced_tail hps)
        (singleSpaced_tail hss) (onlyPlainSpaces_tail hop) (by simpa using htr_cs)
      simp only [List.reverse_nil, List.nil_append] at hrec
      rw [htrim_cs] at hrec
      have hchead : ∀ e, (c :: ' ' :: cs'').head? = some e → isSpace e = false := by
        intro e he
        simp only [List.head?_cons, Option.some.injEq] at he
        subst he
        exact hardPunct_not_space hpc
      have hseg : trimL (buf.reverse ++ [c]) =
          List.dropWhile (fun x => isSpace x) buf.reverse ++ [c] := by
        have hnt : noTrailWs (buf.reverse ++ [c]) := by
          intro e he
          rw [getLast?_append_right buf.reverse [c] (by simp)] at he
          have hce : c = e := by simpa using he
          subst hce
          exact hardPunct_not_space hpc
        rw [trimL_eq_ltrim_of_noTrail _ hnt,
          dropWhile_append_head buf.reverse [c] (by simp)
            (by intro e he
                have hce : c = e := by simpa using he
                subst hce
                exact hardPunct_not_space hpc)]
      have hrest_ne : ((hardAux (' ' :: cs'') []).map trimL).filter (· ≠ []) ≠ [] := by
        intro he
        rw [he] at hrec
        simp [List.intercalate] at hrec
        exact hcs'' hrec
      have hstep : hardAux (c :: ' ' :: cs'') buf =
          (buf.reverse ++ [c]) :: hardAux (' ' :: cs'') [] := by
        simp [hardAux, hpc]
      rw [hstep]
      simp only [List.map_cons, List.filter_cons]
      rw [if_pos (by simp [hseg])]
      rw [intercalate_cons_ne _ _ _ hrest_ne, hrec, hseg]
      rw [trimL_eq_ltrim_of_noTrail _ htr,
        dropWhile_append_head buf.reverse (c :: ' ' :: cs'') (by simp) hchead]
      simp
    · have hstep : hardAux (c :: cs) buf = hardAux cs (c :: buf) := by
        simp only [hardAux]
        rw [if_neg (by simpa using hsplit)]
      rw [hstep]
      have hrw : (c :: buf).reverse ++ cs = buf.reverse ++ c :: cs := by
        simp
      have hh := hardAux_rejoin cs (c :: buf) (punctSpaced_tail hps)
        (singleSpaced_tail hss) (onlyPlainSpaces_tail hop) (by rw [hrw]; exact htr)
      rw [hh, hrw]

/-- Boolean form of `noTrailWs`. -/
def noTrailB (t : List Char) : Bool :=
  match t.getLast? with
  | some c => !isSpace c
  | none => true

/-- The first character, when present, is not whitespace. -/
def headOkB (t : List Char) : Bool :=
  match t.head? with
  | some c => !isSpace c
  | none => true

lemma noTrailB_spec (t : List Char) (h : noTrailB t = true) : noTrailWs t := by
  intro c hc
  unfold noTrailB at h
  rw [hc] at h
  simpa using h

lemma headOkB_spec (t : List Char) (h : headOkB t = true) :
    ∀ c, t.head? = some c → isSpace c = false := by
  intro c hc
  unfold headOkB at h
  rw [hc] at h
  simpa using h

lemma trimL_eq_self (t : List Char)
    (hh : ∀ c, t.head? = some c → isSpace c = false) (ht : noTrailWs t) :
    trimL t = t := by
  rw [trimL_eq_ltrim_of_noTrail t ht]
  cases t with
  | nil => rfl
  | cons c cs => exact List.dropWhile_cons_of_neg (by simp [hh c rfl])

/-- C8 (corrected), counterexample: for the normalized text
`"e.g. hello"` the chunker splits after each `.` inside the token
`e.g.`, yielding `["e.", "g.", "hello"]`, which rejoin to
`"e. g. hello"`, not the original text. -/
theorem claim_C8_counterexample :
    normalizeL "e.g. hello".data = "e.g. hello".data ∧
    "e.g. hello".data ≠ [] ∧
    List.intercalate [' '] (splitIntoSemanticChunksL "e.g. hello".data) ≠
      "e.g. hello".data := by
  decide

/-- C8 (amended): for every non-empty normalized cue text (single plain
spaces, trimmed) in which every strong punctuation mark `.!?;` is
followed by a space or ends the text, and which either contains an
internal sentence boundary (so the punctuation rule fires) or contains
no clause-conjunction match (so the text is returned whole), the chunks
returned by `splitIntoSemanticChunks`, concatenated in order with
single spaces, reproduce the text exactly. -/
theorem claim_C8 (t : List Char) (_h0 : t ≠ [])
    (hps : punctSpaced t = true) (hss : singleSpaced t = true)
    (hop : onlyPlainSpaces t = true) (hhead : headOkB t = true)
    (htrail : noTrailB t = true)
    (hcase : 1 < (hardAux t []).length ∨ (conjSplitL t).length ≤ 1) :
    List.intercalate [' '] (splitIntoSemanticChunksL t) = t := by
  have htr : noTrailWs t := noTrailB_spec t htrail
  have hlead := headOkB_spec t hhead
  by_cases hh : 1 < (hardAux t []).length
  · have hG := hardAux_rejoin t [] hps hss hop (by simpa using htr)
    simp only [List.reverse_nil, List.nil_append] at hG
    have hchunks : splitIntoSemanticChunksL t =
        ((hardAux t []).map trimL).filter (· ≠ []) := by
      rw [splitIntoSemanticChunksL, if_pos hh]
    rw [hchunks, hG]
    exact trimL_eq_self t hlead htr
  · have hc : (conjSplitL t).length ≤ 1 := hcase.resolve_left hh
    have hchunks : splitIntoSemanticChunksL t = [t] := by
      rw [splitIntoSemanticChunksL, if_neg (by omega), if_neg (by omega)]
    rw [hchunks]
    exact intercalate_single [' '] t

/-- C8 witness: `"Go now. Stay here."` chunks to
`["Go now.", "Stay here."]` and rejoins exactly. -/
theorem claim_C8_witness :
    ("Go now. Stay here.".data ≠ [] ∧
      punctSpaced "Go now. Stay here.".data = true ∧
      singleSpaced "Go now. Stay here.".data = true ∧
      onlyPlainSpaces "Go now. Stay here.".data = true ∧
      headOkB "Go now. Stay here.".data = true ∧
      noTrailB "Go now. Stay here.".data = true ∧
      (1 < (hardAux "Go now. Stay here.".data []).length ∨
        (conjSplitL "Go now. Stay here.".data).length ≤ 1)) ∧
    List.intercalate [' '] (splitIntoSemanticChunksL "Go now. Stay here.".data) =
      "Go now. Stay here.".data :=
  ⟨⟨by decide, by decide, by decide, by decide, by decide, by decide,
    Or.inl (by decide)⟩,
   claim_C8 "Go now. Stay here.".data (by decide) (by decide) (by decide)
     (by decide) (by decide) (by decide) (Or.inl (by decide))⟩

/-- The 42-visible-character slices the final guard produces from a
single over-long plain token. -/
def chop42F : Nat → List Char → List (List Char)
  | 0, _ => []
  | f + 1, l =>
    if l.length ≤ MAX_CHARS then (if l = [] then [] else [l])
    else l.take MAX_CHARS :: chop42F f (l.drop MAX_CHARS)

lemma chop42F_flatten : ∀ (f : Nat) (l : List Char), l.length ≤ f * MAX_CHARS →
    (chop42F f l).flatten = l := by
  intro f
  induction f with
  | zero =>
    intro l hl
    simp at hl
    simp [chop42F, hl]
  | succ f ih =>
    intro l hl
    simp only [chop42F]
    by_cases h1 : l.length ≤ MAX_CHARS
    · rw [if_pos h1]
      by_cases h2 : l = []
      · simp [h2]
      · simp [h2]
    · rw [if_neg h1]
      simp only [List.flatten_cons]
      rw [ih (l.drop MAX_CHARS) (by simp [Nat.succ_mul] at hl ⊢; omega)]
      exact List.take_append_drop _ l

lemma mem_of_getLast? {l : List Char} {a : Char} (h : l.getLast? = some a) :
    a ∈ l := by
  rw [← List.head?_reverse] at h
  have := List.mem_of_mem_head? h
  simpa using this

lemma space_cases {c : Char} (h : isSpace c = true) :
    c = ' ' ∨ c = '\t' ∨ c = '\n' ∨ c = Char.ofNat 11 ∨ c = Char.ofNat 12 ∨ c = '\r' := by
  have h' := h
  simp only [isSpace, Bool.or_eq_true, decide_eq_true_eq] at h'
  tauto

lemma alpha_not_space {c : Char} (h : isAsciiAlpha c = true) : isSpace c = false := by
  by_cases hs : isSpace c = true
  · rcases space_cases hs with rfl | rfl | rfl | rfl | rfl | rfl <;>
      exact absurd h (by decide)
  · revert hs
    cases isSpace c <;> simp

lemma isHardPunct_cases {c : Char} (h : isHardPunct c = true) :
    c = '.' ∨ c = '!' ∨ c = '?' ∨ c = ';' := by
  have h' := h
  simp only [isHardPunct, Bool.or_eq_true, decide_eq_true_eq] at h'
  tauto

lemma alpha_not_punct {c : Char} (h : isAsciiAlpha c = true) :
    isHardPunct c = false := by
  by_cases hs : isHardPunct c = true
  · rcases isHardPunct_cases hs with rfl | rfl | rfl | rfl <;>
      exact absurd h (by decide)
  · revert hs
    cases isHardPunct c <;> simp

lemma alpha_not_brace {c : Char} (h : isAsciiAlpha c = true) : c ≠ '{' := by
  intro he
  subst he
  exact absurd h (by decide)

lemma alpha_not_angle {c : Char} (h : isAsciiAlpha c = true) : c ≠ '<' := by
  intro he
  subst he
  exact absurd h (by decide)

lemma alpha_word {c : Char} (h : isAsciiAlpha c = true) : isWordChar c = true := by
  simp only [isAsciiAlpha, Bool.or_eq_true] at h
  simp only [isWordChar, Bool.or_eq_true]
  tauto

lemma collapseAux_id (l : List Char) (h : ∀ c ∈ l, isSpace c = false) :
    ∀ b, collapseAux l b = l := by
  induction l with
  | nil => intro b; rfl
  | cons c cs ih =>
    intro b
    have hc := h c (List.mem_cons_self c cs)
    simp only [collapseAux, hc]
    rw [if_neg (by simp [hc])]
    rw [ih (fun x hx => h x (List.mem_cons_of_mem c hx)) false]

lemma trimL_id_noWs (l : List Char) (h : ∀ c ∈ l, isSpace c = false) :
    trimL l = l := by
  apply trimL_eq_self
  · intro c hc
    exact h c (List.mem_of_mem_head? hc)
  · intro c hc
    exact h c (mem_of_getLast? hc)

lemma normalizeL_id_noWs (l : List Char) (h : ∀ c ∈ l, isSpace c = false) :
    normalizeL l = l := by
  unfold normalizeL collapseWs
  rw [collapseAux_id l h false, trimL_id_noWs l h]

lemma visibleTextL_id_noDelims : ∀ l : List Char,
    (∀ c ∈ l, c ≠ '{' ∧ c ≠ '<') → visibleTextL l = l := by
  intro l
  induction l with
  | nil => intro _; rfl
  | cons c cs ih =>
    intro h
    have hc := h c (List.mem_cons_self c cs)
    rw [visibleTextL_cons, if_neg hc.1, if_neg hc.2,
      ih (fun x hx => h x (List.mem_cons_of_mem c hx))]

lemma tokAux_plain : ∀ (l buf : List Char),
    (∀ c ∈ l, isSpace c = false ∧ c ≠ '{' ∧ c ≠ '<') →
    tokAux l buf = flushBuf (l.reverse ++ buf)
  | [], buf => by
    intro _
    simp [tokAux]
  | c :: cs, buf => by
    intro h
    have hc := h c (List.mem_cons_self c cs)
    simp only [tokAux]
    rw [if_neg (by simp [hc.2.1, hc.2.2]), if_neg (by simp [hc.1])]
    rw [tokAux_plain cs (c :: buf) (fun x hx => h x (List.mem_cons_of_mem c hx))]
    simp

lemma tokenizeL_plain (l : List Char) (hne : l ≠ [])
    (h : ∀ c ∈ l, isSpace c = false ∧ c ≠ '{' ∧ c ≠ '<') :
    tokenizeL l = [l] := by
  unfold tokenizeL
  rw [tokAux_plain l [] h]
  simp [flushBuf, hne]

lemma hardAux_no_punct : ∀ (t buf : List Char),
    (∀ c ∈ t, isHardPunct c = false) → hardAux t buf = [buf.reverse ++ t]
  | [], buf => by intro _; simp [hardAux]
  | c :: cs, buf => by
    intro h
    have hc := h c (List.mem_cons_self c cs)
    simp only [hardAux]
    rw [if_neg (by simp [hc])]
    rw [hardAux_no_punct cs (c :: buf) (fun x hx => h x (List.mem_cons_of_mem c hx))]
    simp

lemma conjScanF_word (f : Nat) : ∀ (l buf : List Char),
    (∀ c ∈ l, isWordChar c = true) →
    conjScanF f l true buf = [buf.reverse ++ l] := by
  induction f with
  | zero => intro l buf _; rfl
  | succ f ih =>
    intro l buf h
    cases l with
    | nil => simp [conjScanF]
    | cons c cs =>
      have hc := h c (List.mem_cons_self c cs)
      show (match tryConj (c :: cs) true with
        | some (m, rest) => buf.reverse :: m :: conjScanF f rest true []
        | none => conjScanF f cs (isWordChar c) (c :: buf)) = [buf.reverse ++ c :: cs]
      rw [show tryConj (c :: cs) true = none from rfl]
      dsimp only
      rw [hc, ih cs (c :: buf) (fun x hx => h x (List.mem_cons_of_mem c hx))]
      simp

lemma tryConj_none_long (l : List Char) (h : ∀ c ∈ l, isWordChar c = true)
    (hl : 8 < l.length) : tryConj l false = none := by
  unfold tryConj
  dsimp only
  rw [List.findSome?_eq_none_iff]
  intro w hw
  have hwlen : w.length ≤ 8 := by
    have hall : ∀ x ∈ CONJ_WORDS, x.length ≤ 8 := by decide
    exact hall w hw
  have hdlen : 0 < (l.drop w.length).length := by
    rw [List.length_drop]
    omega
  obtain ⟨e, rest, hdrop⟩ : ∃ e rest, l.drop w.length = e :: rest := by
    cases hd : l.drop w.length with
    | nil => rw [hd] at hdlen; simp at hdlen
    | cons e rest => exact ⟨e, rest, rfl⟩
  have he : isWordChar e = true := by
    have : e ∈ l := List.drop_subset _ l (by rw [hdrop]; simp)
    exact h e this
  simp [hdrop, he]

lemma conjSplitL_single (w : List Char) (h : ∀ c ∈ w, isWordChar c = true)
    (hl : 8 < w.length) : conjSplitL w = [w] := by
  obtain ⟨c, cs, rfl⟩ : ∃ c cs, w = c :: cs := by
    cases w with
    | nil => simp at hl
    | cons c cs => exact ⟨c, cs, rfl⟩
  show conjScanF ((c :: cs).length + 1) (c :: cs) false [] = [c :: cs]
  have hstep : conjScanF ((c :: cs).length + 1) (c :: cs) false [] =
      conjScanF ((c :: cs).length) cs (isWordChar c) [c] := by
    show (match tryConj (c :: cs) false with
      | some (m, rest) =>
          ([] : List Char).reverse :: m :: conjScanF ((c :: cs).length) rest true []
      | none => conjScanF ((c :: cs).length) cs (isWordChar c) (c :: [])) = _
    rw [tryConj_none_long (c :: cs) h hl]
  rw [hstep, h c (by simp),
    conjScanF_word _ cs [c] (fun x hx => h x (List.mem_cons_of_mem c hx))]
  simp

lemma splitChunkLoop_single (f : Nat) (w : List Char)
    (hgt : ¬ visibleLenL (joinTokensL [w]) ≤ MAX_CHARS)
    (hfind : findBestSplitTokenIndexL [w] = -1)
    (hgreedy : greedySplitTokenIndexL [w] = 1)
    (htr : trimL (joinTokensL [w]) ≠ []) :
    splitChunkLoop (f + 1) [w] = [trimL (joinTokensL [w])] := by
  simp only [splitChunkLoop]
  rw [if_neg hgt, hfind, if_pos rfl, hgreedy]
  rw [if_pos (by simp)]
  rw [if_neg htr]

lemma hardWrapF_alpha (f : Nat) : ∀ (w : List Char),
    (∀ c ∈ w, isAsciiAlpha c = true) → hardWrapF f w = chop42F f w := by
  induction f with
  | zero => intro w _; rfl
  | succ f ih =>
    intro w hmem
    have hnoWs : ∀ c ∈ w, isSpace c = false := fun c hc => alpha_not_space (hmem c hc)
    have hvt : visibleTextL w = w := visibleTextL_id_noDelims w
      (fun c hc => ⟨alpha_not_brace (hmem c hc), alpha_not_angle (hmem c hc)⟩)
    have hvis : visibleLenL w = w.length := by rw [visibleLenL, hvt]
    have htrim : trimL w = w := trimL_id_noWs w hnoWs
    simp only [hardWrapF, chop42F, hvis, htrim]
    by_cases h1 : w.length ≤ MAX_CHARS
    · rw [if_pos h1, if_pos h1]
    · have hne : w ≠ [] := by
        intro he
        rw [he] at h1
        simp at h1
      have htok : tokenizeL w = [w] := tokenizeL_plain w hne
        (fun c hc => ⟨hnoWs c hc, alpha_not_brace (hmem c hc), alpha_not_angle (hmem c hc)⟩)
      have hjoin : joinTokensL [w] = w := by
        unfold joinTokensL
        rw [intercalate_single, normalizeL_id_noWs w hnoWs]
      have hcut : cutCount [] [w] = 0 := by
        simp only [cutCount, List.nil_append]
        rw [if_neg (by rw [hjoin, hvis]; exact h1)]
      rw [if_neg h1, if_neg h1, htok, hcut, if_pos rfl, hvt]
      have htlen : (w.take MAX_CHARS).length = MAX_CHARS := by
        rw [List.length_take]
        omega
      rw [htlen]
      congr 1
      exact ih (w.drop MAX_CHARS) (fun c hc => hmem c (List.drop_subset _ _ hc))

lemma splitToLinesL_alpha (w : List Char)
    (halpha : ∀ c ∈ w, isAsciiAlpha c = true) (hlen : MAX_CHARS < w.length) :
    splitToLinesL w = chop42F (w.length + 2) w := by
  have hnoWs : ∀ c ∈ w, isSpace c = false := fun c hc => alpha_not_space (halpha c hc)
  have hne : w ≠ [] := by
    intro he
    rw [he] at hlen
    simp [MAX_CHARS] at hlen
  obtain ⟨c0, cs0, hw0⟩ : ∃ c0 cs0, w = c0 :: cs0 := by
    cases w with
    | nil => exact absurd rfl hne
    | cons c0 cs0 => exact ⟨c0, cs0, rfl⟩
  have hnorm : normalizeL w = w := normalizeL_id_noWs w hnoWs
  have hvt : visibleTextL w = w := visibleTextL_id_noDelims w
    (fun c hc => ⟨alpha_not_brace (halpha c hc), alpha_not_angle (halpha c hc)⟩)
  have hvis : visibleLenL w = w.length := by rw [visibleLenL, hvt]
  have hvgt : ¬ visibleLenL w ≤ MAX_CHARS := by
    rw [hvis]
    omega
  have htok : tokenizeL w = [w] := tokenizeL_plain w hne
    (fun c hc => ⟨hnoWs c hc, alpha_not_brace (halpha c hc), alpha_not_angle (halpha c hc)⟩)
  have htrim : trimL w = w := trimL_id_noWs w hnoWs
  have hjoin : joinTokensL [w] = w := by
    unfold joinTokensL
    rw [intercalate_single, hnorm]
  have hhard : hardAux w [] = [w] := by
    simpa using hardAux_no_punct w [] (fun c hc => alpha_not_punct (halpha c hc))
  have hconj : conjSplitL w = [w] :=
    conjSplitL_single w (fun c hc => alpha_word (halpha c hc))
      (by have h42 : MAX_CHARS = 42 := rfl; omega)
  have hchunks : splitIntoSemanticChunksL w = [w] := by
    rw [splitIntoSemanticChunksL, hhard]
    rw [if_neg (by simp), hconj, if_neg (by simp)]
  have htw : totalWordsOf [w] = 1 := by
    rw [hw0]
    have hcb : c0 ≠ '<' := alpha_not_angle (halpha c0 (by rw [hw0]; simp))
    have hcc : c0 ≠ '{' := alpha_not_brace (halpha c0 (by rw [hw0]; simp))
    simp [totalWordsOf, headIs, hcb, hcc]
  have hfind : findBestSplitTokenIndexL [w] = -1 := by
    rw [findBestSplitTokenIndexL, htw]
    rw [if_pos (by omega)]
  have hgreedy : greedySplitTokenIndexL [w] = 1 := by
    show greedyAux (w :: []) [] 0 = 1
    simp only [greedyAux, List.nil_append]
    rw [if_pos (by rw [hjoin, hvis]; omega)]
    simp
  have hchunkint : splitChunkIntoLinesL w = [w] := by
    rw [splitChunkIntoLinesL, htok]
    rw [if_neg (by rw [hjoin]; exact hvgt)]
    have : ([w] : List (List Char)).length + 1 = 1 + 1 := by simp
    rw [this, splitChunkLoop_single 1 w (by rw [hjoin]; exact hvgt) hfind hgreedy
      (by rw [hjoin, htrim]; exact hne), hjoin, htrim]
  have hckl : chunkLines w = [w] := by
    rw [chunkLines, htrim]
    rw [if_neg hne, if_neg hvgt, hchunkint]
    simp [hne]
  have hguard : guardLine w = chop42F (w.length + 2) w := by
    rw [guardLine, if_neg hvgt]
    exact hardWrapF_alpha (w.length + 2) w halpha
  rw [splitToLinesL, hnorm, if_neg hne, if_neg hvgt, hchunks]
  simp only [List.map_cons, List.map_nil, List.flatten_cons, List.flatten_nil,
    List.append_nil, hckl, hguard]

/-- C7 (corrected), counterexample: a lone 50-character word has
visible length over the limit and is a single token, but it is *not*
emitted as its own line verbatim: the final guard character-slices it
(into a 42-character and an 8-character line). -/
theorem claim_C7_counterexample :
    MAX_CHARS < visibleLength (String.mk (List.replicate 50 'x')) ∧
    tokenize (String.mk (List.replicate 50 'x')) =
      [String.mk (List.replicate 50 'x')] ∧
    String.mk (List.replicate 50 'x') ∉
      splitToLines (String.mk (List.replicate 50 'x')) := by
  decide

/-- C7 (amended): for input consisting of a single plain (letters-only)
token whose visible length exceeds 42, `splitToLines` first emits the
token as one line, then the final guard character-slices it at
42-visible-character boundaries: the result is exactly the 42-character
slices of the token, in order; their concatenation is the whole token
(no text is silently lost) and every slice is within the limit. -/
theorem claim_C7 (w : List Char) (halpha : ∀ c ∈ w, isAsciiAlpha c = true)
    (hlen : MAX_CHARS < w.length) :
    splitToLinesL w = chop42F (w.length + 2) w ∧
    (splitToLinesL w).flatten = w ∧
    ∀ x ∈ splitToLinesL w, visibleLenL x ≤ MAX_CHARS := by
  have h1 := splitToLinesL_alpha w halpha hlen
  refine ⟨h1, ?_, splitToLinesL_le w⟩
  rw [h1]
  apply chop42F_flatten
  have : 1 ≤ MAX_CHARS := by decide
  calc w.length ≤ w.length + 2 := by omega
    _ ≤ (w.length + 2) * MAX_CHARS := Nat.le_mul_of_pos_right _ (by decide)

/-- C7 witness: a 43-letter token is split into a 42-letter line and a
1-letter line, reassembling to the original. -/
theorem claim_C7_witness :
    ((∀ c ∈ List.replicate 43 'q', isAsciiAlpha c = true) ∧
      MAX_CHARS < (List.replicate 43 'q').length) ∧
    (splitToLinesL (List.replicate 43 'q') =
        chop42F ((List.replicate 43 'q').length + 2) (List.replicate 43 'q') ∧
      (splitToLinesL (List.replicate 43 'q')).flatten = List.replicate 43 'q' ∧
      ∀ x ∈ splitToLinesL (List.replicate 43 'q'), visibleLenL x ≤ MAX_CHARS) :=
  ⟨⟨by decide, by decide⟩,
   claim_C7 (List.replicate 43 'q') (by decide) (by decide)⟩

/-- The letters-only restriction above is necessary: a single plain
over-long token containing sentence punctuation is split inside the
token by the semantic chunker (the lookbehind sentence split) before
the final guard ever runs, so the output is the chunker's two lines,
not the 42-character slices of the token. -/
lemma splitToLines_punct_token :
    tokenize (String.mk (List.replicate 20 'a' ++ '.' :: List.replicate 29 'b')) =
      [String.mk (List.replicate 20 'a' ++ '.' :: List.replicate 29 'b')] ∧
    splitToLines (String.mk (List.replicate 20 'a' ++ '.' :: List.replicate 29 'b')) =
      [String.mk (List.replicate 20 'a' ++ ['.']), String.mk (List.replicate 29 'b')] := by
  decide

lemma digitChar_props (n : Nat) (h : n < 10) :
    isDigit (Char.ofNat (48 + n)) = true ∧ isSpace (Char.ofNat (48 + n)) = false ∧
    Char.ofNat (48 + n) ≠ '\n' ∧ (Char.ofNat (48 + n)).toNat - 48 = n ∧
    isHardPunct (Char.ofNat (48 + n)) = false := by
  interval_cases n <;> refine ⟨by decide, by decide, by decide, by decide, by decide⟩

lemma digitsVal_append (a : List Char) (c : Char) :
    digitsVal (a ++ [c]) = digitsVal a * 10 + (c.toNat - 48) := by
  simp [digitsVal, List.foldl_append]

lemma natDigitsF_spec : ∀ (f n : Nat), n < f →
    digitsVal (natDigitsF f n) = n ∧ natDigitsF f n ≠ [] ∧
    ∀ c ∈ natDigitsF f n, isDigit c = true ∧ isSpace c = false ∧ c ≠ '\n' := by
  intro f
  induction f with
  | zero => intro n hn; omega
  | succ f ih =>
    intro n hn
    by_cases h10 : n < 10
    · have hd := digitChar_props n h10
      refine ⟨?_, ?_, ?_⟩
      · simp only [natDigitsF, if_pos h10]
        simp [digitsVal, hd.2.2.2.1]
      · simp [natDigitsF, if_pos h10]
      · intro c hc
        simp only [natDigitsF, if_pos h10, List.mem_singleton] at hc
        subst hc
        exact ⟨hd.1, hd.2.1, hd.2.2.1⟩
    · have hdiv : n / 10 < f := by omega
      have ihd := ih (n / 10) hdiv
      have hd := digitChar_props (n % 10) (by omega)
      refine ⟨?_, ?_, ?_⟩
      · simp only [natDigitsF, if_neg h10]
        rw [digitsVal_append, ihd.1, hd.2.2.2.1]
        omega
      · simp [natDigitsF, if_neg h10]
      · intro c hc
        simp only [natDigitsF, if_neg h10, List.mem_append, List.mem_singleton] at hc
        rcases hc with hc | hc
        · exact ihd.2.2 c hc
        · subst hc
          exact ⟨hd.1, hd.2.1, hd.2.2.1⟩

lemma natToStringL_spec (n : Nat) :
    digitsVal (natToStringL n) = n ∧ natToStringL n ≠ [] ∧
    ∀ c ∈ natToStringL n, isDigit c = true ∧ isSpace c = false ∧ c ≠ '\n' :=
  natDigitsF_spec (n + 1) n (by omega)

lemma digit_not_space {c : Char} (h : isDigit c = true) : isSpace c = false := by
  by_cases hs : isSpace c = true
  · rcases space_cases hs with rfl | rfl | rfl | rfl | rfl | rfl <;>
      exact absurd h (by decide)
  · revert hs
    cases isSpace c <;> simp

lemma jsToNatL_natToStringL (n : Nat) : jsToNatL (natToStringL n) = n := by
  obtain ⟨hval, hne, hprops⟩ := natToStringL_spec n
  unfold jsToNatL
  rw [trimL_id_noWs _ (fun c hc => (hprops c hc).2.1)]
  rw [if_pos (by
    simp only [Bool.and_eq_true, decide_eq_true_eq, List.all_eq_true]
    exact ⟨hne, fun c hc => by simpa using (hprops c hc).1⟩)]
  exact hval

/-- Every `\n` is followed by a non-whitespace character or ends the
text (so no whitespace run can contain two newlines). -/
def nlFollowed : List Char → Bool
  | [] => true
  | [_] => true
  | c :: d :: rest => (!(c = '\n') || !isSpace d) && nlFollowed (d :: rest)

lemma nlFollowed_tail {c : Char} {cs : List Char}
    (h : nlFollowed (c :: cs) = true) : nlFollowed cs = true := by
  cases cs with
  | nil => rfl
  | cons d rest =>
    simp only [nlFollowed, Bool.and_eq_true] at h
    exact h.2

lemma nlFollowed_head {c d : Char} {cs : List Char}
    (h : nlFollowed (c :: d :: cs) = true) (hc : c = '\n') :
    isSpace d = false := by
  simp only [nlFollowed, Bool.and_eq_true] at h
  have h1 := h.1
  rcases (by simpa using h1 : ¬c = '\n' ∨ isSpace d = false) with h' | h'
  · exact absurd hc h'
  · exact h'

lemma nlFollowed_sep : ∀ (x y : List Char), (∀ c ∈ x, c ≠ '\n') →
    (∀ c, y.head? = some c → isSpace c = false) → nlFollowed y = true →
    nlFollowed (x ++ '\n' :: y) = true
  | [], y => by
    intro _ hy hnl
    cases y with
    | nil => rfl
    | cons d rest =>
      have := hy d rfl
      simp only [List.nil_append, nlFollowed, Bool.and_eq_true]
      exact ⟨by simp [this], hnl⟩
  | [a], y => by
    intro hx hy hnl
    have ha := hx a (by simp)
    have hrec := nlFollowed_sep [] y (by simp) hy hnl
    simp only [List.cons_append, List.nil_append] at hrec ⊢
    simp only [nlFollowed, Bool.and_eq_true]
    exact ⟨by simp [ha], hrec⟩
  | a :: b :: x', y => by
    intro hx hy hnl
    have ha := hx a (by simp)
    have hrec := nlFollowed_sep (b :: x') y
      (fun c hc => hx c (List.mem_cons_of_mem a hc)) hy hnl
    simp only [List.cons_append] at hrec ⊢
    simp only [nlFollowed, Bool.and_eq_true]
    exact ⟨by simp [ha], hrec⟩

lemma nlFollowed_no_nl : ∀ (x : List Char), (∀ c ∈ x, c ≠ '\n') →
    nlFollowed x = true
  | [] => by intro _; rfl
  | [_] => by intro _; rfl
  | a :: b :: x' => by
    intro h
    simp only [nlFollowed, Bool.and_eq_true]
    exact ⟨by simp [h a (by simp)],
      nlFollowed_no_nl (b :: x') (fun c hc => h c (List.mem_cons_of_mem a hc))⟩

lemma noTrailWs_tail (c : Char) (b : List Char) (h : noTrailWs (c :: b)) :
    noTrailWs b := by
  cases hb : b with
  | nil => intro x hx; simp at hx
  | cons d b' =>
    rw [← hb]
    exact noTrailWs_of_append_right [c] b (by rw [hb]; simp) h

lemma isSpace_not_of_false {c : Char} (h : ¬ isSpace c = true) : isSpace c = false := by
  revert h
  cases isSpace c <;> simp

/-- Scanning a block with no double newline and no trailing whitespace:
no separator fires; the block is appended to the current segment. -/
lemma sbA_last : ∀ (b cur wbuf : List Char),
    nlFollowed b = true →
    (∀ c ∈ wbuf, isSpace c = true) →
    wbuf.count '\n' ≤ 1 →
    (wbuf.count '\n' = 1 → ∀ c, b.head? = some c → isSpace c = false) →
    noTrailWs b →
    (b = [] → wbuf = []) →
    sbA b cur wbuf = [cur.reverse ++ wbuf.reverse ++ b]
  | [], cur, wbuf => by
    intro _ _ _ _ _ hemp
    rw [hemp rfl]
    simp [sbA]
  | c :: b', cur, wbuf => by
    intro hnl hw hcount hone htr _
    by_cases hc : isSpace c = true
    · have hcount0 : wbuf.count '\n' = 0 := by
        rcases Nat.lt_or_ge (wbuf.count '\n') 1 with h | h
        · omega
        · have h1 : wbuf.count '\n' = 1 := by omega
          have := hone h1 c rfl
          rw [this] at hc
          simp at hc
      have hb' : b' ≠ [] := by
        intro he
        subst he
        have := htr c rfl
        rw [this] at hc
        simp at hc
      simp only [sbA, if_pos hc]
      rw [sbA_last b' cur (c :: wbuf) (nlFollowed_tail hnl)
        (by intro x hx; rcases List.mem_cons.mp hx with rfl | hx; exact hc; exact hw x hx)
        (by rw [List.count_cons]; split <;> omega)
        (by
          intro h1 d hd
          have hcnl : c = '\n' := by
            rw [List.count_cons] at h1
            by_cases hcc : c = '\n'
            · exact hcc
            · rw [if_neg (by simpa using hcc)] at h1; omega
          subst hcnl
          cases b' with
          | nil => simp at hd
          | cons e b'' =>
            have hee : d = e := by simpa using hd.symm
            subst hee
            exact nlFollowed_head hnl rfl)
        (noTrailWs_tail c b' htr)
        (fun he => absurd he hb')]
      simp
    · have hc' := isSpace_not_of_false hc
      simp only [sbA]
      rw [if_neg (by simp [hc']), if_neg (by omega)]
      rw [sbA_last b' (c :: (wbuf ++ cur)) [] (nlFollowed_tail hnl)
        (by simp) (by simp) (by simp) (noTrailWs_tail c b' htr) (by intro _; rfl)]
      simp

/-- One non-whitespace step from the empty state. -/
lemma sbA_step_nonws (r : Char) (t : List Char) (hr : isSpace r = false) :
    sbA (r :: t) [] [] = sbA t [r] [] := by
  simp only [sbA]
  rw [if_neg (by simp [hr]), if_neg (by simp)]
  rfl

/-- Scanning a clean block followed by the separator `\n\n` and a
non-whitespace character: the block is emitted and scanning restarts. -/
lemma sbA_sep : ∀ (b cur wbuf : List Char) (r : Char) (rest' : List Char),
    nlFollowed b = true →
    (∀ c ∈ wbuf, isSpace c = true) →
    wbuf.count '\n' ≤ 1 →
    (wbuf.count '\n' = 1 → ∀ c, b.head? = some c → isSpace c = false) →
    noTrailWs b →
    (b = [] → wbuf = []) →
    isSpace r = false →
    sbA (b ++ '\n' :: '\n' :: r :: rest') cur wbuf =
      (cur.reverse ++ wbuf.reverse ++ b) :: sbA rest' [r] []
  | [], cur, wbuf, r, rest' => by
    intro _ _ _ _ _ hemp hr
    rw [hemp rfl]
    show sbA ('\n' :: '\n' :: r :: rest') cur [] = _
    rw [show sbA ('\n' :: '\n' :: r :: rest') cur [] =
        sbA ('\n' :: r :: rest') cur ['\n'] from by
      simp only [sbA]; rw [if_pos (by decide)]]
    rw [show sbA ('\n' :: r :: rest') cur ['\n'] =
        sbA (r :: rest') cur ['\n', '\n'] from by
      simp only [sbA]; rw [if_pos (by decide)]]
    simp only [sbA]
    rw [if_neg (by simp [hr]), if_pos (by simp)]
    simp
  | c :: b', cur, wbuf, r, rest' => by
    intro hnl hw hcount hone htr _ hr
    by_cases hc : isSpace c = true
    · have hcount0 : wbuf.count '\n' = 0 := by
        rcases Nat.lt_or_ge (wbuf.count '\n') 1 with h | h
        · omega
        · have h1 : wbuf.count '\n' = 1 := by omega
          have := hone h1 c rfl
          rw [this] at hc
          simp at hc
      have hb' : b' ≠ [] := by
        intro he
        subst he
        have := htr c rfl
        rw [this] at hc
        simp at hc
      show sbA ((c :: b') ++ '\n' :: '\n' :: r :: rest') cur wbuf = _
      simp only [List.cons_append, sbA, if_pos hc]
      simp only [List.append_eq]
      rw [sbA_sep b' cur (c :: wbuf) r rest' (nlFollowed_tail hnl)
        (by intro x hx; rcases List.mem_cons.mp hx with rfl | hx; exact hc; exact hw x hx)
        (by rw [List.count_cons]; split <;> omega)
        (by
          intro h1 d hd
          have hcnl : c = '\n' := by
            rw [List.count_cons] at h1
            by_cases hcc : c = '\n'
            · exact hcc
            · rw [if_neg (by simpa using hcc)] at h1; omega
          subst hcnl
          cases b' with
          | nil => simp at hd
          | cons e b'' =>
            have hee : d = e := by simpa using hd.symm
            subst hee
            exact nlFollowed_head hnl rfl)
        (noTrailWs_tail c b' htr)
        (fun he => absurd he hb') hr]
      simp
    · have hc' := isSpace_not_of_false hc
      show sbA ((c :: b') ++ '\n' :: '\n' :: r :: rest') cur wbuf = _
      simp only [List.cons_append, sbA]
      rw [if_neg (by simp [hc']), if_neg (by omega)]
      simp only [List.append_eq]
      rw [sbA_sep b' (c :: (wbuf ++ cur)) [] r rest' (nlFollowed_tail hnl)
        (by simp) (by simp) (by simp) (noTrailWs_tail c b' htr) (by intro _; rfl) hr]
      simp

lemma splitCharAux_no_sep : ∀ (l buf : List Char), (∀ c ∈ l, c ≠ '\n') →
    splitCharAux '\n' l buf = [buf.reverse ++ l]
  | [], buf => by
    intro _
    simp [splitCharAux]
  | c :: l', buf => by
    intro h
    simp only [splitCharAux]
    rw [if_neg (h c (by simp))]
    rw [splitCharAux_no_sep l' (c :: buf) (fun x hx => h x (List.mem_cons_of_mem c hx))]
    simp

lemma splitCharAux_sep : ∀ (x y buf : List Char), (∀ c ∈ x, c ≠ '\n') →
    splitCharAux '\n' (x ++ '\n' :: y) buf =
      (buf.reverse ++ x) :: splitCharAux '\n' y []
  | [], y, buf => by
    intro _
    simp [splitCharAux]
  | c :: x', y, buf => by
    intro h
    simp only [List.cons_append, splitCharAux]
    rw [if_neg (h c (by simp))]
    simp only [List.append_eq]
    rw [splitCharAux_sep x' y (c :: buf) (fun z hz => h z (List.mem_cons_of_mem c hz))]
    simp

lemma splitChar_intercalate : ∀ (ls : List (List Char)), ls ≠ [] →
    (∀ l ∈ ls, ∀ c ∈ l, c ≠ '\n') →
    splitChar '\n' (List.intercalate ['\n'] ls) = ls
  | [], hne => by intro _; exact absurd rfl hne
  | [l], _ => by
    intro h
    rw [intercalate_single]
    exact (by
      show splitCharAux '\n' l [] = [l]
      rw [splitCharAux_no_sep l [] (h l (by simp))]
      simp)
  | l :: l2 :: rest, _ => by
    intro h
    rw [intercalate_cons_ne ['\n'] l (l2 :: rest) (by simp)]
    show splitCharAux '\n' ((l ++ ['\n']) ++ List.intercalate ['\n'] (l2 :: rest)) [] = _
    rw [List.append_assoc, List.singleton_append]
    rw [splitCharAux_sep l _ [] (h l (by simp))]
    rw [show splitCharAux '\n' (List.intercalate ['\n'] (l2 :: rest)) [] =
        splitChar '\n' (List.intercalate ['\n'] (l2 :: rest)) from rfl]
    rw [splitChar_intercalate (l2 :: rest) (by simp)
      (fun x hx => h x (List.mem_cons_of_mem l hx))]
    simp

lemma head?_append_left (x y : List Char) (hx : x ≠ []) :
    (x ++ y).head? = x.head? := by
  cases x with
  | nil => exact absurd rfl hx
  | cons c cs => simp

/-- Properties of `intercalate ['\n'] lines` for non-empty well-behaved
lines: non-empty, newline-isolated, right endpoints. -/
lemma intercalate_nl_props : ∀ (ls : List (List Char)), ls ≠ [] →
    (∀ l ∈ ls, l ≠ [] ∧ (∀ c ∈ l, c ≠ '\n') ∧
      (∀ c, l.head? = some c → isSpace c = false) ∧ noTrailWs l) →
    List.intercalate ['\n'] ls ≠ [] ∧
    nlFollowed (List.intercalate ['\n'] ls) = true ∧
    (∀ c, (List.intercalate ['\n'] ls).head? = some c → isSpace c = false) ∧
    noTrailWs (List.intercalate ['\n'] ls)
  | [], hne => by intro _; exact absurd rfl hne
  | [l], _ => by
    intro h
    obtain ⟨hne, hnl, hhd, htr⟩ := h l (by simp)
    rw [intercalate_single]
    exact ⟨hne, nlFollowed_no_nl l hnl, hhd, htr⟩
  | l :: l2 :: rest, _ => by
    intro h
    obtain ⟨hne, hnl, hhd, _⟩ := h l (by simp)
    obtain ⟨ine, infl, ihd, itr⟩ := intercalate_nl_props (l2 :: rest) (by simp)
      (fun x hx => h x (List.mem_cons_of_mem l hx))
    rw [intercalate_cons_ne ['\n'] l (l2 :: rest) (by simp)]
    rw [List.append_assoc, List.singleton_append]
    refine ⟨by simp [hne], ?_, ?_, ?_⟩
    · exact nlFollowed_sep l _ hnl ihd infl
    · rw [head?_append_left l _ hne]
      exact hhd
    · intro c hc
      rw [getLast?_append_right l _ (by simp)] at hc
      cases hin : List.intercalate ['\n'] (l2 :: rest) with
      | nil => exact absurd hin ine
      | cons d din =>
        rw [hin] at hc
        rw [show ('\n' :: d :: din).getLast? = (d :: din).getLast? from
          getLast?_append_right ['\n'] (d :: din) (by simp)] at hc
        rw [← hin] at hc
        exact itr c hc

/-- A well-formed line: non-empty, no newline, no leading or trailing
whitespace. -/
def wfLine (l : String) : Bool :=
  !(l.data.isEmpty) && l.data.all (fun c => !(c = '\n')) &&
    headOkB l.data && noTrailB l.data

/-- A well-formed cue: positive index, well-formed time line, at least
one line, all lines well-formed. -/
def wfCue (s : Subtitle) : Bool :=
  (1 ≤ s.index) && wfLine s.time && !(s.text.isEmpty) && s.text.all wfLine

def wfCues (subs : List Subtitle) : Bool := subs.all wfCue

/-- One rendered block of `buildSRT`. -/
def blockL (s : Subtitle) : List Char :=
  natToStringL s.index ++ ('\n' :: (s.time.data ++ ('\n' ::
    List.intercalate ['\n'] (s.text.map String.data))))

lemma buildSRT_eq (subs : List Subtitle) :
    (buildSRT subs).data = List.intercalate "\n\n".data (subs.map blockL) := rfl

lemma wfLine_spec (l : String) (h : wfLine l = true) :
    l.data ≠ [] ∧ (∀ c ∈ l.data, c ≠ '\n') ∧
    (∀ c, l.data.head? = some c → isSpace c = false) ∧ noTrailWs l.data := by
  simp only [wfLine, Bool.and_eq_true] at h
  obtain ⟨⟨⟨h1, h2⟩, h3⟩, h4⟩ := h
  refine ⟨by simpa using h1, ?_, headOkB_spec _ h3, noTrailB_spec _ h4⟩
  intro c hc
  have := List.all_eq_true.mp h2 c hc
  simpa using this

lemma wfCue_spec (s : Subtitle) (h : wfCue s = true) :
    1 ≤ s.index ∧ wfLine s.time = true ∧ s.text ≠ [] ∧
    ∀ l ∈ s.text, wfLine l = true := by
  simp only [wfCue, Bool.and_eq_true] at h
  obtain ⟨⟨⟨h1, h2⟩, h3⟩, h4⟩ := h
  exact ⟨by simpa using h1, h2, by simpa using h3, fun l hl => List.all_eq_true.mp h4 l hl⟩

lemma blockL_props (s : Subtitle) (h : wfCue s = true) :
    blockL s ≠ [] ∧
    (∀ c, (blockL s).head? = some c → isSpace c = false) ∧
    noTrailWs (blockL s) ∧
    nlFollowed (blockL s) = true := by
  obtain ⟨hidx, htime, htne, hlines⟩ := wfCue_spec s h
  obtain ⟨tne, tnl, thd, ttr⟩ := wfLine_spec s.time htime
  obtain ⟨dval, dne, dprops⟩ := natToStringL_spec s.index
  have hmapne : s.text.map String.data ≠ [] := by simpa using htne
  have hmapprops : ∀ l ∈ s.text.map String.data, l ≠ [] ∧ (∀ c ∈ l, c ≠ '\n') ∧
      (∀ c, l.head? = some c → isSpace c = false) ∧ noTrailWs l := by
    intro l hl
    obtain ⟨str, hstr, rfl⟩ := List.mem_map.mp hl
    obtain ⟨a, b, c, d⟩ := wfLine_spec str (hlines str hstr)
    exact ⟨a, b, c, d⟩
  obtain ⟨ine, infl, ihd, itr⟩ := intercalate_nl_props _ hmapne hmapprops
  have hinner : nlFollowed (s.time.data ++ '\n' ::
      List.intercalate ['\n'] (s.text.map String.data)) = true :=
    nlFollowed_sep _ _ tnl ihd infl
  refine ⟨by simp [blockL, dne], ?_, ?_, ?_⟩
  · intro c hc
    rw [blockL, head?_append_left _ _ dne] at hc
    exact (dprops c (List.mem_of_mem_head? hc)).2.1
  · intro c hc
    rw [blockL, getLast?_append_right _ _ (by simp)] at hc
    rw [show ('\n' :: (s.time.data ++ '\n' ::
        List.intercalate ['\n'] (s.text.map String.data))).getLast? =
        (s.time.data ++ '\n' ::
          List.intercalate ['\n'] (s.text.map String.data)).getLast? from
      getLast?_append_right ['\n'] _ (by simp)] at hc
    rw [getLast?_append_right _ _ (by simp)] at hc
    rw [show ('\n' :: List.intercalate ['\n'] (s.text.map String.data)).getLast? =
        (List.intercalate ['\n'] (s.text.map String.data)).getLast? from
      getLast?_append_right ['\n'] _ ine] at hc
    exact itr c hc
  · rw [blockL]
    apply nlFollowed_sep _ _ (fun c hc => (dprops c hc).2.2)
    · intro c hc
      rw [head?_append_left _ _ tne] at hc
      exact thd c hc
    · exact hinner

lemma splitChar_blockL (s : Subtitle) (h : wfCue s = true) :
    splitChar '\n' (blockL s) =
      natToStringL s.index :: s.time.data :: s.text.map String.data := by
  obtain ⟨hidx, htime, htne, hlines⟩ := wfCue_spec s h
  obtain ⟨tne, tnl, _, _⟩ := wfLine_spec s.time htime
  obtain ⟨_, dne, dprops⟩ := natToStringL_spec s.index
  show splitCharAux '\n' (natToStringL s.index ++ '\n' :: (s.time.data ++ '\n' ::
    List.intercalate ['\n'] (s.text.map String.data))) [] = _
  rw [splitCharAux_sep _ _ [] (fun c hc => (dprops c hc).2.2)]
  rw [splitCharAux_sep _ _ [] tnl]
  rw [show splitCharAux '\n' (List.intercalate ['\n'] (s.text.map String.data)) [] =
      splitChar '\n' (List.intercalate ['\n'] (s.text.map String.data)) from rfl]
  rw [splitChar_intercalate _ (by simpa using htne) (by
    intro l hl
    obtain ⟨str, hstr, rfl⟩ := List.mem_map.mp hl
    exact (wfLine_spec str (hlines str hstr)).2.1)]
  simp

lemma intercalate_head? (sep x : List Char) (rest : List (List Char))
    (hx : x ≠ []) :
    (List.intercalate sep (x :: rest)).head? = x.head? := by
  cases rest with
  | nil => rw [intercalate_single]
  | cons y ys =>
    rw [intercalate_cons_ne sep x (y :: ys) (by simp)]
    rw [List.append_assoc]
    exact head?_append_left x _ hx

/-- The blank-line scanner recovers the blocks from their `\n\n`
interleaving, provided each block is non-empty, starts with a
non-whitespace character, has no trailing whitespace, and contains no
`\n` followed by whitespace. -/
lemma sbA_blocks : ∀ (bs : List (List Char)), bs ≠ [] →
    (∀ b ∈ bs, b ≠ [] ∧ (∀ c, b.head? = some c → isSpace c = false) ∧
      noTrailWs b ∧ nlFollowed b = true) →
    sbA (List.intercalate ['\n', '\n'] bs) [] [] = bs
  | [], hne => by intro _; exact absurd rfl hne
  | [b], _ => by
    intro h
    obtain ⟨hbne, hhd, htr, hnl⟩ := h b (by simp)
    rw [intercalate_single]
    rw [sbA_last b [] [] hnl (by simp) (by simp)
      (by intro h1; simp at h1) htr (fun he => absurd he hbne)]
    simp
  | b :: b2 :: rest, _ => by
    intro h
    obtain ⟨hbne, hhd, htr, hnl⟩ := h b (by simp)
    obtain ⟨hb2ne, hb2hd, _, _⟩ := h b2 (by simp)
    rw [intercalate_cons_ne ['\n', '\n'] b (b2 :: rest) (by simp)]
    have hIhd : (List.intercalate ['\n', '\n'] (b2 :: rest)).head? = b2.head? :=
      intercalate_head? ['\n', '\n'] b2 rest hb2ne
    cases hI : List.intercalate ['\n', '\n'] (b2 :: rest) with
    | nil =>
      exfalso
      rw [hI] at hIhd
      cases hb2 : b2 with
      | nil => exact absurd hb2 hb2ne
      | cons d ds => rw [hb2] at hIhd; simp at hIhd
    | cons r rest'' =>
      have hr : isSpace r = false := by
        apply hb2hd
        rw [← hIhd, hI]
        rfl
      have hshape : (b ++ ['\n', '\n']) ++ r :: rest'' =
          b ++ '\n' :: '\n' :: r :: rest'' := by
        rw [List.append_assoc]
        rfl
      rw [hshape]
      rw [sbA_sep b [] [] r rest'' hnl (by simp)
        (by simp) (by intro h1; simp at h1) htr (fun _ => rfl) hr]
      rw [← sbA_step_nonws r rest'' hr]
      rw [← hI]
      rw [sbA_blocks (b2 :: rest) (by simp)
        (fun x hx => h x (List.mem_cons_of_mem b hx))]
      simp

/-- Endpoints of an interleaving of blocks with clean endpoints. -/
lemma intercalate_blocks_props (sep : List Char) :
    ∀ (bs : List (List Char)), bs ≠ [] →
    (∀ b ∈ bs, b ≠ [] ∧ (∀ c, b.head? = some c → isSpace c = false) ∧
      noTrailWs b) →
    (∀ c, (List.intercalate sep bs).head? = some c → isSpace c = false) ∧
    noTrailWs (List.intercalate sep bs)
  | [], hne => by intro _; exact absurd rfl hne
  | [b], _ => by
    intro h
    obtain ⟨hbne, hhd, htr⟩ := h b (by simp)
    rw [intercalate_single]
    exact ⟨hhd, htr⟩
  | b :: b2 :: rest, _ => by
    intro h
    obtain ⟨hbne, hhd, _⟩ := h b (by simp)
    obtain ⟨hb2ne, _, _⟩ := h b2 (by simp)
    obtain ⟨ihd, itr⟩ := intercalate_blocks_props sep (b2 :: rest) (by simp)
      (fun x hx => h x (List.mem_cons_of_mem b hx))
    have hIne : List.intercalate sep (b2 :: rest) ≠ [] := by
      have hIhd : (List.intercalate sep (b2 :: rest)).head? = b2.head? :=
        intercalate_head? sep b2 rest hb2ne
      intro he
      rw [he] at hIhd
      cases hb2 : b2 with
      | nil => exact absurd hb2 hb2ne
      | cons d ds => rw [hb2] at hIhd; simp at hIhd
    rw [intercalate_cons_ne sep b (b2 :: rest) (by simp)]
    constructor
    · intro c hc
      rw [List.append_assoc, head?_append_left b _ hbne] at hc
      exact hhd c hc
    · intro c hc
      rw [getLast?_append_right _ _ hIne] at hc
      exact itr c hc

/-- The per-block body of `parseSRT`'s map. -/
def parseBlock (bi : Nat × List Char) : Subtitle :=
  let lines := splitChar '\n' bi.2
  let v := jsToNatL (lines.getD 0 [])
  { index := if v = 0 then bi.1 + 1 else v
    time := ⟨lines.getD 1 []⟩
    text := (lines.drop 2).map fun l => (⟨l⟩ : String) }

lemma parseSRTL_eq (input : List Char) :
    parseSRTL input = (splitBlank (trimL input)).enum.map parseBlock := rfl

/-- Parsing one rendered block of a well-formed cue recovers its index,
time and lines (the position argument is ignored because the rendered
index is non-zero). -/
lemma parseBlock_blockL (k : Nat) (s : Subtitle) (h : wfCue s = true) :
    parseBlock (k, blockL s) =
      { index := s.index, time := s.time, text := s.text } := by
  obtain ⟨hidx, _, _, _⟩ := wfCue_spec s h
  simp only [parseBlock]
  rw [splitChar_blockL s h]
  simp only [List.getD_cons_zero, List.getD_cons_succ, List.drop_succ_cons,
    List.drop_zero]
  rw [jsToNatL_natToStringL]
  rw [if_neg (by omega)]
  have htext : (s.text.map String.data).map (fun l => (⟨l⟩ : String)) = s.text := by
    rw [List.map_map]
    have hcomp : ((fun l => (⟨l⟩ : String)) ∘ String.data) = id := funext fun t => rfl
    rw [hcomp, List.map_id]
  rw [htext]

lemma enumFrom_parseBlocks : ∀ (subs : List Subtitle) (k : Nat),
    wfCues subs = true →
    (List.enumFrom k (subs.map blockL)).map parseBlock =
      subs.map fun s => { index := s.index, time := s.time, text := s.text }
  | [], k => by intro _; rfl
  | s :: rest, k => by
    intro h
    have hsplit : wfCue s = true ∧ wfCues rest = true := by
      simp only [wfCues, List.all_cons, Bool.and_eq_true] at h
      exact h
    simp only [List.map_cons, List.enumFrom]
    rw [parseBlock_blockL k s hsplit.1]
    rw [enumFrom_parseBlocks rest (k + 1) hsplit.2]

lemma splitBlank_buildSRT (subs : List Subtitle) (hne : subs ≠ [])
    (hwf : wfCues subs = true) :
    splitBlank (buildSRT subs).data = subs.map blockL := by
  rw [buildSRT_eq]
  show sbA (List.intercalate "\n\n".data (subs.map blockL)) [] [] = _
  rw [show "\n\n".data = ['\n', '\n'] from rfl]
  apply sbA_blocks
  · simpa using hne
  · intro b hb
    obtain ⟨s, hs, rfl⟩ := List.mem_map.mp hb
    obtain ⟨a, c, d, e⟩ := blockL_props s (List.all_eq_true.mp hwf s hs)
    exact ⟨a, c, d, e⟩

/-- The concrete cue used below: already well formed but carrying the
non-dense index `5`. -/
def c5cue : Subtitle := { index := 5, time := "00:00:01,000 --> 00:00:02,000", text := ["hi"] }

/-- C5: refuted as stated.  `buildSRT` does not renumber indices: it
renders each cue's own `index` field verbatim, and `parseSRT` adopts a
rendered non-zero numeric index rather than the block position, so a
well-formed cue list carrying index 5 round-trips to index 5, not 1. -/
theorem claim_C5_counterexample :
    wfCues [c5cue] = true ∧
    (parseSRT (buildSRT [c5cue])).map Subtitle.index = [5] ∧
    (parseSRT (buildSRT [c5cue])).map Subtitle.index ≠ [1] := by decide

/-- C5 (amended): for every non-empty well-formed cue list (positive
indices; time line and every text line non-empty, newline-free, with
non-whitespace endpoints; at least one text line per cue),
`parseSRT (buildSRT cues)` yields cues with line text, timecode strings
and index fields all identical to the input cues (indices are preserved
verbatim, not renumbered). -/
theorem claim_C5 (subs : List Subtitle) (hne : subs ≠ [])
    (hwf : wfCues subs = true) :
    parseSRT (buildSRT subs) =
      subs.map fun s => { index := s.index, time := s.time, text := s.text } := by
  have hprops : ∀ b ∈ subs.map blockL, b ≠ [] ∧
      (∀ c, b.head? = some c → isSpace c = false) ∧ noTrailWs b := by
    intro b hb
    obtain ⟨s, hs, rfl⟩ := List.mem_map.mp hb
    obtain ⟨a, c, d, _⟩ := blockL_props s (List.all_eq_true.mp hwf s hs)
    exact ⟨a, c, d⟩
  have hmapne : subs.map blockL ≠ [] := by simpa using hne
  obtain ⟨ihd, itr⟩ := intercalate_blocks_props "\n\n".data (subs.map blockL)
    hmapne hprops
  show parseSRTL (buildSRT subs).data = _
  rw [parseSRTL_eq]
  rw [trimL_eq_self (buildSRT subs).data
    (by rw [buildSRT_eq]; exact ihd) (by rw [buildSRT_eq]; exact itr)]
  rw [splitBlank_buildSRT subs hne hwf]
  rw [show (subs.map blockL).enum = List.enumFrom 0 (subs.map blockL) from rfl]
  exact enumFrom_parseBlocks subs 0 hwf

/-- Witness for C5 at a concrete well-formed one-cue list. -/
theorem claim_C5_witness :
    parseSRT (buildSRT [c5cue]) =
      [c5cue].map fun s => { index := s.index, time := s.time, text := s.text } :=
  claim_C5 [c5cue] (by simp) (by decide)

lemma range'_append_one (s a b : Nat) :
    List.range' s a ++ List.range' (s + a) b = List.range' s (a + b) := by
  rw [Nat.add_comm a b]
  simp [List.range'_append s a b 1]

lemma reindex_map_index (es : List Subtitle) (idx : Nat) :
    (reindex es idx).map Subtitle.index = List.range' idx es.length := by
  have h1 : (reindex es idx).map Subtitle.index =
      es.enum.map fun ie => idx + ie.1 := by
    simp [reindex]
  have h2 : es.enum.map (fun ie => idx + ie.1) =
      (es.enum.map Prod.fst).map (fun k => idx + k) := by
    rw [List.map_map]
    rfl
  rw [h1, h2, List.enum_map_fst, ← List.range'_eq_map_range]

lemma reindex_length (es : List Subtitle) (idx : Nat) :
    (reindex es idx).length = es.length := by simp [reindex]

lemma fixLoop_map_index (subs : List Subtitle) (idx : Nat) :
    (fixLoop subs idx).map Subtitle.index =
      List.range' idx (fixLoop subs idx).length := by
  induction subs generalizing idx with
  | nil => simp [fixLoop]
  | cons sub rest ih =>
    simp only [fixLoop, List.map_append, List.length_append]
    rw [reindex_map_index, ih, reindex_length, range'_append_one]

/-- C3: after `fixSubtitles` the indices are exactly `1..N` in output
order, whatever the input indices were. -/
theorem claim_C3 (subs : List Subtitle) :
    (fixSubtitles subs).map Subtitle.index =
      List.range' 1 (fixSubtitles subs).length := by
  simpa [fixSubtitles] using fixLoop_map_index subs 1

lemma tagAux_no_close (close : Char) (acc : List Char) :
    ∀ l : List Char, close ∉ l → tagAux l close acc = [acc.reverse ++ l]
  | [], _ => by simp [tagAux]
  | c :: cs, h => by
    have hc : c ≠ close := fun hc => h (hc ▸ List.mem_cons_self c cs)
    have hcs : close ∉ cs := fun h' => h (List.mem_cons_of_mem c h')
    simp only [tagAux, if_neg hc]
    rw [tagAux_no_close close (c :: acc) cs hcs]
    simp

lemma tokAux_append_unterminated (d : Char) (rest : List Char)
    (hd : d = '<' ∨ d = '{') (hclose : closeOf d ∉ rest) :
    ∀ (pre : List Char) (buf : List Char), (∀ c ∈ pre, c ≠ '<' ∧ c ≠ '{') →
      tokAux (pre ++ d :: rest) buf = tokAux pre buf ++ [d :: rest]
  | [], buf, _ => by
    have hd' : (d = '<' || d = '{') = true := by
      rcases hd with h | h <;> simp [h]
    simp only [List.nil_append, tokAux, hd', if_pos rfl]
    rw [tagAux_no_close (closeOf d) [d] rest hclose]
    simp [tokAux]
  | c :: pre', buf, hpre => by
    have hc := hpre c (List.mem_cons_self c pre')
    have hpre' : ∀ x ∈ pre', x ≠ '<' ∧ x ≠ '{' :=
      fun x hx => hpre x (List.mem_cons_of_mem c hx)
    have hcd : (c = '<' || c = '{') = false := by
      simp [hc.1, hc.2]
    by_cases hsp : isSpace c = true
    · simp only [List.cons_append, tokAux, hcd, hsp]
      simp only [Bool.false_eq_true, if_false, if_true, List.append_eq]
      rw [tokAux_append_unterminated d rest hd hclose pre' [] hpre']
      simp
    · have hsp' : isSpace c = false := by
        revert hsp; cases isSpace c <;> simp
      simp only [List.cons_append, tokAux, hcd, hsp']
      simp only [Bool.false_eq_true, if_false, List.append_eq]
      exact tokAux_append_unterminated d rest hd hclose pre' (c :: buf) hpre'

/-- C10 (corrected), counterexample: in `"<a{b>c"` the `{` at position 2
has no matching `}` after it, yet the tokenizer does not emit the
remainder `"{b>c"` as one token — the `{` was consumed inside the
earlier `<…>` tag, and the tokens are `["<a{b>", "c"]`. -/
theorem claim_C10_counterexample :
    "<a\x7bb>c".data.getD 2 ' ' = '{' ∧ '}' ∉ "<a\x7bb>c".data.drop 3 ∧
    tokenize "<a\x7bb>c" = ["<a\x7bb>", "c"] ∧
    ∀ tok ∈ tokenize "<a\x7bb>c", tok ≠ "\x7bb>c" := by
  decide

/-- C10 (amended): when the scan reaches an unterminated opening
delimiter outside any tag — in particular whenever the first `<` or `{`
of the input has no matching closer after it — the tokenizer consumes
the entire remainder from that delimiter as one token (whitespace
included) and terminates having consumed the whole input. -/
theorem claim_C10 (pre rest : List Char) (d : Char)
    (hd : d = '<' ∨ d = '{')
    (hpre : ∀ c ∈ pre, c ≠ '<' ∧ c ≠ '{')
    (hclose : closeOf d ∉ rest) :
    tokenizeL (pre ++ d :: rest) = tokenizeL pre ++ [d :: rest] :=
  tokAux_append_unterminated d rest hd hclose pre [] hpre

/-- C10 witness: `"ab <c d"` tokenizes as `["ab", "<c d"]`. -/
theorem claim_C10_witness :
    (('<' = '<' ∨ '<' = '{') ∧ (∀ c ∈ "ab ".data, c ≠ '<' ∧ c ≠ '{') ∧
      closeOf '<' ∉ "c d".data) ∧
    tokenizeL ("ab ".data ++ '<' :: "c d".data) =
      tokenizeL "ab ".data ++ ['<' :: "c d".data] :=
  ⟨⟨Or.inl rfl, by decide, by decide⟩,
   claim_C10 "ab ".data "c d".data '<' (Or.inl rfl) (by decide) (by decide)⟩

end Verbolabs
